import Mathlib

/-!
Shallow embedding of the collision-safe folder renumbering script
(renumber_folders.py).  Directory names are lists of characters; the base
directory is a list of entries (name and directory flag).  The two phases of
the script are modelled as functions over that state, instrumented so that
every issued rename is recorded together with the listing at the moment it
is issued.  Renaming follows the failure modes the script relies on: a rename
aborts when the source is missing or when a different entry already carries
the target name, and the script does not catch such failures.
-/

deriving instance DecidableEq for Except

namespace Renumber

/-- Directory names, modelled as lists of characters. -/
abbrev Name := List Char

/-- An immediate child of the base directory: its name and whether it is a
directory. -/
structure Entry where
  name : Name
  isDir : Bool
deriving DecidableEq, Repr

/-- The staged renames recorded in phase 1 (the dict temp_renames):
new ordinal to (temporary name, label). -/
abbrev TR := List (Nat × Name × Name)

/-- One issued rename: source name, target name, and the directory listing at
the moment the rename is issued. -/
structure Ev where
  src : Name
  tgt : Name
  pre : List Entry
deriving DecidableEq, Repr

/-- The character for a decimal digit value. -/
def digitChar (n : Nat) : Char := Char.ofNat (48 + n)

/-- Decimal digits of a natural number, most significant first
(fuel-indexed helper, the fuel always exceeds the number). -/
def natDigitsAux : Nat → Nat → List Char
  | 0, _ => []
  | fuel + 1, n =>
    if n < 10 then [digitChar n] else natDigitsAux fuel (n / 10) ++ [digitChar (n % 10)]

/-- Decimal digits of a natural number, most significant first. -/
def natDigits (n : Nat) : List Char := natDigitsAux (n + 1) n

/-- The Python format 02d: decimal digits, left padded with one zero to
width two. -/
def pad2 (n : Nat) : Name :=
  if (natDigits n).length < 2 then '0' :: natDigits n else natDigits n

/-- The code points matched by the whitespace class of the regex.  The script
compiles a str pattern without the ASCII flag, so the class is the Unicode
whitespace table of the runtime: the ASCII whitespace, the information
separator characters, next line, no-break space, and the Unicode space
characters. -/
def pyWhitespaceCodes : List Nat :=
  [0x9, 0xa, 0xb, 0xc, 0xd, 0x1c, 0x1d, 0x1e, 0x1f, 0x20, 0x85, 0xa0, 0x1680,
   0x2000, 0x2001, 0x2002, 0x2003, 0x2004, 0x2005, 0x2006, 0x2007, 0x2008,
   0x2009, 0x200a, 0x2028, 0x2029, 0x202f, 0x205f, 0x3000]

/-- Membership in the whitespace class of the regex. -/
def isPyWhitespace (c : Char) : Bool := pyWhitespaceCodes.contains c.toNat

/-- The zero digits of the blocks matched by the digit class of the regex
(the Unicode decimal digits): every block is the ten consecutive characters
of decimal values zero through nine starting at a listed code point. -/
def pyDigitZeros : List Nat :=
  [0x30, 0x660, 0x6f0, 0x7c0, 0x966, 0x9e6, 0xa66, 0xae6, 0xb66, 0xbe6,
   0xc66, 0xce6, 0xd66, 0xde6, 0xe50, 0xed0, 0xf20, 0x1040, 0x1090, 0x17e0,
   0x1810, 0x1946, 0x19d0, 0x1a80, 0x1a90, 0x1b50, 0x1bb0, 0x1c40, 0x1c50,
   0xa620, 0xa8d0, 0xa900, 0xa9d0, 0xa9f0, 0xaa50, 0xabf0, 0xff10, 0x104a0,
   0x10d30, 0x11066, 0x110f0, 0x11136, 0x111d0, 0x112f0, 0x11450, 0x114d0,
   0x11650, 0x116c0, 0x11730, 0x118e0, 0x11950, 0x11c50, 0x11d50, 0x11da0,
   0x16a60, 0x16ac0, 0x16b50, 0x1d7ce, 0x1d7d8, 0x1d7e2, 0x1d7ec, 0x1d7f6,
   0x1e140, 0x1e2f0, 0x1e950, 0x1fbf0]

/-- The decimal value of a character of the digit class of the regex, and
none for any other character. -/
def pyDigitVal (c : Char) : Option Nat :=
  pyDigitZeros.findSome? fun z =>
    if z ≤ c.toNat ∧ c.toNat ≤ z + 9 then some (c.toNat - z) else none

/-- Membership in the digit class of the regex. -/
def isPyDigit (c : Char) : Bool := (pyDigitVal c).isSome

/-- Python int applied to a string of characters of the digit class: the
decimal values of the digits in position. -/
def digitsToNat (ds : Name) : Nat :=
  ds.foldl (fun a c => a * 10 + (pyDigitVal c).getD 0) 0

/-- The tail of the regex (the second group, one or more arbitrary characters,
followed by the end anchor), with the Python semantics: the dot does not match
a newline, and the anchor also matches just before a single trailing
newline. -/
def matchTail (r : Name) : Option Name :=
  if r.getLast? = some '\n' then
    if r.dropLast ≠ [] ∧ ¬ '\n' ∈ r.dropLast then some r.dropLast else none
  else if r ≠ [] ∧ ¬ '\n' ∈ r then some r else none

/-- Matching a name against the regex of the script (leading digit group,
a period, one whitespace character, then the label group): returns the
ordinal (the digit group through int) and the label. -/
def parseName (s : Name) : Option (Nat × Name) :=
  match s.takeWhile isPyDigit, s.dropWhile isPyDigit with
  | d :: ds, '.' :: w :: r =>
    if isPyWhitespace w then
      match matchTail r with
      | some l => some (digitsToNat (d :: ds), l)
      | none => none
    else none
  | _, _ => none

/-- The temporary name built in phase 1: the marker TEMP_ then the new
ordinal padded to two digits, a period, a space, and the label. -/
def tempName (n : Nat) (l : Name) : Name :=
  'T' :: 'E' :: 'M' :: 'P' :: '_' :: (pad2 n ++ '.' :: ' ' :: l)

/-- The final name built in phase 2: the new ordinal padded to two digits,
a period, a space, and the label. -/
def finalName (n : Nat) (l : Name) : Name :=
  pad2 n ++ '.' :: ' ' :: l

/-- Renaming one entry: the entry carrying the source name takes the target
name. -/
def renSubst (old new : Name) (e : Entry) : Entry :=
  if e.name = old then { e with name := new } else e

/-- os.rename on the listing: aborts when the source name is missing or when a
different entry already carries the target name; otherwise the source entry
now carries the target name. -/
def renameFs (old new : Name) (fs : List Entry) : Except String (List Entry) :=
  if ¬ fs.any (fun e => e.name = old) then .error "source missing"
  else if old ≠ new ∧ fs.any (fun e => e.name = new) then .error "target exists"
  else .ok (fs.map (renSubst old new))

/-- The inner loop of phase 1: scan the listing in order and return the name
and label of the first directory whose name matches the pattern with the given
ordinal (the loop breaks at the first match). -/
def findMatch (k : Nat) : List Entry → Option (Name × Name)
  | [] => none
  | e :: fs =>
    if e.isDir then
      match parseName e.name with
      | some (n, l) => if n = k then some (e.name, l) else findMatch k fs
      | none => findMatch k fs
    else findMatch k fs

/-- Lookup in an association list with natural number keys (dict access). -/
def lookupL {α : Type} (k : Nat) : List (Nat × α) → Option α
  | [] => none
  | (k0, v) :: t => if k0 = k then some v else lookupL k t

/-- Assignment into the dict temp_renames keyed by the new ordinal: an
existing record under the same key is overwritten. -/
def insertTR (tr : TR) (k : Nat) (v : Name × Name) : TR :=
  if tr.any (fun p => p.1 = k) then tr.map (fun p => if p.1 = k then (k, v) else p)
  else tr ++ [(k, v)]

/-- Phase 1 over the listed old ordinals: look the key up in the renumbering
map, find the directory carrying that ordinal, rename it to its temporary name
and record the staged rename; a missing match is skipped silently, and a
failing rename stops the run with that failure.  The issued renames are
returned alongside the result. -/
def phase1T (m : List (Nat × Nat)) :
    List Nat → List Entry → TR → Except String (List Entry × TR) × List Ev
  | [], fs, tr => (.ok (fs, tr), [])
  | k :: ks, fs, tr =>
    match lookupL k m with
    | none => phase1T m ks fs tr
    | some n =>
      match findMatch k fs with
      | none => phase1T m ks fs tr
      | some (nm, l) =>
        match renameFs nm (tempName n l) fs with
        | .error err => (.error err, [⟨nm, tempName n l, fs⟩])
        | .ok fs1 =>
          let r := phase1T m ks fs1 (insertTR tr n (tempName n l, l))
          (r.1, ⟨nm, tempName n l, fs⟩ :: r.2)

/-- Phase 2 over the listed new ordinals: rename each recorded temporary name
to its final name; a failing rename stops the run with that failure.  The
issued renames are returned alongside the result. -/
def phase2T (tr : TR) : List Nat → List Entry → Except String (List Entry) × List Ev
  | [], fs => (.ok fs, [])
  | k :: ks, fs =>
    match lookupL k tr with
    | none => (.error "key not recorded", [])
    | some (tname, l) =>
      match renameFs tname (finalName k l) fs with
      | .error err => (.error err, [⟨tname, finalName k l, fs⟩])
      | .ok fs1 =>
        let r := phase2T tr ks fs1
        (r.1, ⟨tname, finalName k l, fs⟩ :: r.2)

/-- The keys of phase 1: the keys of the renumbering map sorted in reverse. -/
def p1Keys (m : List (Nat × Nat)) : List Nat :=
  List.insertionSort (fun a b => b ≤ a) ((m.map Prod.fst).dedup)

/-- The keys of phase 2: the keys of temp_renames sorted ascending. -/
def p2Keys (tr : TR) : List Nat :=
  List.insertionSort (fun a b => a ≤ b) (tr.map Prod.fst)

/-- The whole script on a renumbering map and a base directory listing,
with every issued rename recorded. -/
def runT (m : List (Nat × Nat)) (fs : List Entry) :
    Except String (List Entry) × List Ev :=
  match phase1T m (p1Keys m) fs [] with
  | (.error err, evs) => (.error err, evs)
  | (.ok (fs1, tr), evs) =>
    let r := phase2T tr (p2Keys tr) fs1
    (r.1, evs ++ r.2)

/-- The whole script: the final listing on success, the failure otherwise. -/
def run (m : List (Nat × Nat)) (fs : List Entry) : Except String (List Entry) :=
  (runT m fs).1

/-- The listing has at most one directory per ordinal: two matching
directories with the same ordinal carry the same name. -/
def OrdUniq (fs : List Entry) : Prop :=
  ∀ e1, e1 ∈ fs → ∀ e2, e2 ∈ fs → e1.isDir = true → e2.isDir = true →
    ∀ k l1 l2, parseName e1.name = some (k, l1) → parseName e2.name = some (k, l2) →
      e1.name = e2.name

/-- Characters of a string literal, for concrete instances. -/
def chars (s : String) : Name := s.data

/-! ## Decimal digits and padding -/

theorem digitChar_pyDigit (m : Nat) (h : m < 10) : isPyDigit (digitChar m) = true := by
  interval_cases m <;> decide

theorem digitChar_val (m : Nat) (h : m < 10) : pyDigitVal (digitChar m) = some m := by
  interval_cases m <;> decide

theorem digitsToNat_append_last (a : Name) (c : Char) :
    digitsToNat (a ++ [c]) = digitsToNat a * 10 + (pyDigitVal c).getD 0 := by
  simp [digitsToNat, List.foldl_append]

theorem natDigitsAux_spec (fuel : Nat) :
    ∀ n, n < fuel → natDigitsAux fuel n ≠ [] ∧
      (∀ c ∈ natDigitsAux fuel n, isPyDigit c = true) ∧
      digitsToNat (natDigitsAux fuel n) = n := by
  induction fuel with
  | zero => intro n h; omega
  | succ fuel ih =>
    intro n h
    by_cases h10 : n < 10
    · refine ⟨by simp [natDigitsAux, h10], ?_, ?_⟩
      · intro c hc
        simp [natDigitsAux, h10] at hc
        subst hc; exact digitChar_pyDigit n h10
      · simp [natDigitsAux, h10, digitsToNat, digitChar_val n h10]
    · have hdiv : n / 10 < n := Nat.div_lt_self (by omega) (by omega)
      have hrec := ih (n / 10) (by omega)
      refine ⟨by simp [natDigitsAux, h10], ?_, ?_⟩
      · intro c hc
        simp only [natDigitsAux, if_neg h10, List.mem_append, List.mem_singleton] at hc
        rcases hc with hc | hc
        · exact hrec.2.1 c hc
        · subst hc; exact digitChar_pyDigit _ (Nat.mod_lt _ (by omega))
      · simp only [natDigitsAux, if_neg h10]
        rw [digitsToNat_append_last, hrec.2.2, digitChar_val _ (Nat.mod_lt _ (by omega))]
        simp only [Option.getD_some]
        omega

theorem natDigits_ne_nil (n : Nat) : natDigits n ≠ [] :=
  (natDigitsAux_spec (n + 1) n (Nat.lt_succ_self n)).1

theorem natDigits_all_digits (n : Nat) : ∀ c ∈ natDigits n, isPyDigit c = true :=
  (natDigitsAux_spec (n + 1) n (Nat.lt_succ_self n)).2.1

theorem digitsToNat_natDigits (n : Nat) : digitsToNat (natDigits n) = n :=
  (natDigitsAux_spec (n + 1) n (Nat.lt_succ_self n)).2.2

theorem digitsToNat_cons_zero (ds : Name) : digitsToNat ('0' :: ds) = digitsToNat ds := by
  have h0 : (pyDigitVal '0').getD 0 = 0 := by decide
  simp [digitsToNat, h0]

theorem pad2_all_digits (n : Nat) : ∀ c ∈ pad2 n, isPyDigit c = true := by
  unfold pad2
  split
  · intro c hc
    rcases List.mem_cons.mp hc with hc | hc
    · subst hc; decide
    · exact natDigits_all_digits n c hc
  · exact natDigits_all_digits n

theorem pad2_ne_nil (n : Nat) : pad2 n ≠ [] := by
  unfold pad2; split
  · simp
  · exact natDigits_ne_nil n

theorem digitsToNat_pad2 (n : Nat) : digitsToNat (pad2 n) = n := by
  unfold pad2; split
  · rw [digitsToNat_cons_zero, digitsToNat_natDigits]
  · exact digitsToNat_natDigits n

theorem pad2_inj {a b : Nat} (h : pad2 a = pad2 b) : a = b := by
  have := congrArg digitsToNat h
  rwa [digitsToNat_pad2, digitsToNat_pad2] at this

theorem pad2_cons (n : Nat) : ∃ c cs, pad2 n = c :: cs ∧ isPyDigit c = true := by
  rcases hp : pad2 n with _ | ⟨c, cs⟩
  · exact absurd hp (pad2_ne_nil n)
  · exact ⟨c, cs, rfl, pad2_all_digits n c (by rw [hp]; exact List.mem_cons_self c cs)⟩

/-! ## Characterization of the regex match -/

theorem takeWhile_digits (ds r : Name) (h : ∀ c ∈ ds, isPyDigit c = true) :
    (ds ++ '.' :: r).takeWhile isPyDigit = ds ∧
    (ds ++ '.' :: r).dropWhile isPyDigit = '.' :: r := by
  induction ds with
  | nil =>
    have hdot : ¬ isPyDigit '.' = true := by decide
    simp [hdot]
  | cons c t ih =>
    have hc : isPyDigit c = true := h c (List.mem_cons_self c t)
    have ht := ih (fun x hx => h x (List.mem_cons_of_mem c hx))
    constructor
    · simpa [List.takeWhile_cons, hc] using ht.1
    · simpa [List.dropWhile_cons, hc] using ht.2

theorem getLast?_mem {α : Type} {l : List α} {a : α} (h : l.getLast? = some a) : a ∈ l := by
  induction l with
  | nil => simp at h
  | cons c t ih =>
    rcases t with _ | ⟨d, t'⟩
    · simp at h; subst h; exact List.mem_cons_self _ _
    · rw [List.getLast?_cons_cons] at h
      exact List.mem_cons_of_mem c (ih h)

theorem matchTail_eq_some_iff (r l : Name) :
    matchTail r = some l ↔ l ≠ [] ∧ ¬ '\n' ∈ l ∧ (r = l ∨ r = l ++ ['\n']) := by
  unfold matchTail
  split
  next h1 =>
    have hr : r ≠ [] := by rintro rfl; simp at h1
    have hrep : r.dropLast ++ ['\n'] = r := by
      have hh := List.dropLast_append_getLast hr
      rw [List.getLast?_eq_getLast r hr, Option.some_inj] at h1
      rw [h1] at hh
      exact hh
    split
    next h2 =>
      constructor
      · rintro h; rw [Option.some_inj] at h; subst h
        exact ⟨h2.1, h2.2, Or.inr hrep.symm⟩
      · rintro ⟨hl, hnl, hcase | hcase⟩
        · subst hcase
          exact absurd (getLast?_mem h1) hnl
        · subst hcase
          rw [List.dropLast_concat]
    next h2 =>
      constructor
      · rintro h; simp at h
      · rintro ⟨hl, hnl, hcase | hcase⟩
        · subst hcase; exact absurd (getLast?_mem h1) hnl
        · subst hcase; rw [List.dropLast_concat] at h2; exact absurd ⟨hl, hnl⟩ h2
  next h1 =>
    split
    next h2 =>
      constructor
      · rintro h; rw [Option.some_inj] at h; subst h
        exact ⟨h2.1, h2.2, Or.inl rfl⟩
      · rintro ⟨hl, hnl, hcase | hcase⟩
        · subst hcase; rfl
        · subst hcase; exact absurd (List.getLast?_concat l) h1
    next h2 =>
      constructor
      · rintro h; simp at h
      · rintro ⟨hl, hnl, hcase | hcase⟩
        · subst hcase; exact absurd ⟨hl, hnl⟩ h2
        · subst hcase; exact absurd (List.getLast?_concat l) h1

/-- Computing the regex match on a decomposed name. -/
theorem parseName_decomp (ds : Name) (w : Char) (l opt : Name)
    (hds : ds ≠ []) (hdig : ∀ c ∈ ds, isPyDigit c = true)
    (hw : isPyWhitespace w = true) (hl : l ≠ []) (hnl : ¬ '\n' ∈ l)
    (hopt : opt = [] ∨ opt = ['\n']) :
    parseName (ds ++ '.' :: w :: (l ++ opt)) = some (digitsToNat ds, l) := by
  have ht := takeWhile_digits ds (w :: (l ++ opt)) hdig
  have hmt : matchTail (l ++ opt) = some l :=
    (matchTail_eq_some_iff _ _).mpr
      ⟨hl, hnl, by rcases hopt with h | h <;> subst h <;> simp⟩
  rcases ds with _ | ⟨d, ds'⟩
  · exact absurd rfl hds
  · unfold parseName
    rw [ht.1, ht.2]
    simp [hw, hmt]

/-- Inverting the regex match into a decomposition of the name. -/
theorem parseName_some_decomp {s : Name} {k : Nat} {l : Name}
    (h : parseName s = some (k, l)) :
    ∃ ds w opt, s = ds ++ '.' :: w :: (l ++ opt) ∧ ds ≠ [] ∧
      (∀ c ∈ ds, isPyDigit c = true) ∧ isPyWhitespace w = true ∧ l ≠ [] ∧
      ¬ '\n' ∈ l ∧ (opt = [] ∨ opt = ['\n']) ∧ k = digitsToNat ds := by
  have hsplit : s = s.takeWhile isPyDigit ++ s.dropWhile isPyDigit :=
    (List.takeWhile_append_dropWhile ..).symm
  have hdig : ∀ c ∈ s.takeWhile isPyDigit, isPyDigit c = true := by
    intro c hc; exact List.mem_takeWhile_imp hc
  unfold parseName at h
  split at h
  next d ds w r heq1 heq2 =>
    split at h
    next hw =>
      rcases hmt : matchTail r with _ | t
      · rw [hmt] at h; simp at h
      · rw [hmt] at h
        rw [Option.some_inj] at h
        have hk : k = digitsToNat (d :: ds) := (Prod.mk.injEq .. ▸ h).1.symm
        have hlt : t = l := (Prod.mk.injEq .. ▸ h).2
        subst hlt
        rcases (matchTail_eq_some_iff r t).mp hmt with ⟨htne, htnl, hcase⟩
        refine ⟨d :: ds, w, ?_⟩
        rcases hcase with hcase | hcase
        · refine ⟨[], ?_, by simp, by rw [← heq1]; exact hdig, hw, htne, htnl, Or.inl rfl, hk⟩
          rw [hsplit, heq1, heq2, hcase]; simp
        · refine ⟨['\n'], ?_, by simp, by rw [← heq1]; exact hdig, hw, htne, htnl, Or.inr rfl, hk⟩
          rw [hsplit, heq1, heq2, hcase]
    next hw => simp at h
  next => simp at h

/-- The full characterization of the regex match of the script. -/
theorem parseName_eq_some_iff (s : Name) (k : Nat) (l : Name) :
    parseName s = some (k, l) ↔
      ∃ ds w opt, s = ds ++ '.' :: w :: (l ++ opt) ∧ ds ≠ [] ∧
        (∀ c ∈ ds, isPyDigit c = true) ∧ isPyWhitespace w = true ∧ l ≠ [] ∧
        ¬ '\n' ∈ l ∧ (opt = [] ∨ opt = ['\n']) ∧ k = digitsToNat ds := by
  constructor
  · exact parseName_some_decomp
  · rintro ⟨ds, w, opt, rfl, hds, hdig, hw, hl, hnl, hopt, rfl⟩
    exact parseName_decomp ds w l opt hds hdig hw hl hnl hopt

/-- A temporary name never matches the pattern: it starts with the marker. -/
theorem parseName_tempName (n : Nat) (l : Name) : parseName (tempName n l) = none := rfl

/-- The regex match on a final name: the ordinal parses back, and the label is
matched by the tail of the regex. -/
theorem parseName_finalName (n : Nat) (l : Name) :
    parseName (finalName n l) = (matchTail l).map (fun t => (n, t)) := by
  have ht := takeWhile_digits (pad2 n) (' ' :: l) (pad2_all_digits n)
  rcases pad2_cons n with ⟨c, cs, hpc, hcd⟩
  unfold finalName parseName
  rw [ht.1, ht.2, hpc]
  have hval : digitsToNat (c :: cs) = n := by rw [← hpc, digitsToNat_pad2]
  have hws : isPyWhitespace ' ' = true := by decide
  rcases hmt : matchTail l with _ | t <;> simp [hmt, hval, hws]

/-- A temporary name is never a final name: the marker head is not a digit. -/
theorem tempName_ne_finalName (n : Nat) (l : Name) (n' : Nat) (l' : Name) :
    tempName n l ≠ finalName n' l' := by
  intro h
  rcases pad2_cons n' with ⟨c, cs, hpc, hcd⟩
  rw [tempName, finalName, hpc] at h
  have : 'T' = c := by injection h
  rw [← this] at hcd
  exact absurd hcd (by decide)

/-- Two runs of digits followed by a period determine each other. -/
theorem digits_append_dot_inj (a : Name) :
    ∀ b r r', (∀ c ∈ a, isPyDigit c = true) → (∀ c ∈ b, isPyDigit c = true) →
      a ++ '.' :: r = b ++ '.' :: r' → a = b ∧ r = r' := by
  induction a with
  | nil =>
    intro b r r' _ hb h
    rcases b with _ | ⟨c, b'⟩
    · simp at h; simp [h]
    · simp at h
      have : isPyDigit '.' = true := h.1 ▸ hb c (List.mem_cons_self c b')
      exact absurd this (by decide)
  | cons c a' ih =>
    intro b r r' ha hb h
    rcases b with _ | ⟨d, b'⟩
    · simp at h
      have : isPyDigit '.' = true := by
        rw [h.1] at ha; exact ha '.' (List.mem_cons_self _ _)
      exact absurd this (by decide)
    · simp at h
      rcases h with ⟨rfl, h⟩
      rcases ih b' r r' (fun x hx => ha x (List.mem_cons_of_mem c hx))
        (fun x hx => hb x (List.mem_cons_of_mem c hx)) h with ⟨rfl, rfl⟩
      exact ⟨rfl, rfl⟩

/-- Temporary names are determined by the new ordinal and the label. -/
theorem tempName_inj {n : Nat} {l : Name} {n' : Nat} {l' : Name}
    (h : tempName n l = tempName n' l') : n = n' ∧ l = l' := by
  have h5 : pad2 n ++ '.' :: ' ' :: l = pad2 n' ++ '.' :: ' ' :: l' := by
    simpa [tempName] using h
  rcases digits_append_dot_inj (pad2 n) (pad2 n') (' ' :: l) (' ' :: l')
    (pad2_all_digits n) (pad2_all_digits n') h5 with ⟨hp, hr⟩
  refine ⟨pad2_inj hp, ?_⟩
  injection hr

/-- Final names are determined by the new ordinal and the label. -/
theorem finalName_inj {n : Nat} {l : Name} {n' : Nat} {l' : Name}
    (h : finalName n l = finalName n' l') : n = n' ∧ l = l' := by
  rcases digits_append_dot_inj (pad2 n) (pad2 n') (' ' :: l) (' ' :: l')
    (pad2_all_digits n) (pad2_all_digits n') h with ⟨hp, hr⟩
  refine ⟨pad2_inj hp, ?_⟩
  injection hr

/-! ## Renaming -/

theorem renameFs_ok_shape {old new : Name} {fs fs' : List Entry}
    (h : renameFs old new fs = .ok fs') : fs' = fs.map (renSubst old new) := by
  unfold renameFs at h
  split at h
  · simp at h
  · split at h
    · simp at h
    · rw [Except.ok.injEq] at h; exact h.symm

theorem renameFs_ok_tgt {old new : Name} {fs fs' : List Entry}
    (h : renameFs old new fs = .ok fs') : old = new ∨ ∀ e ∈ fs, e.name ≠ new := by
  unfold renameFs at h
  split at h
  · simp at h
  · split at h
    · simp at h
    next hcond =>
      rw [not_and_or] at hcond
      rcases hcond with hcond | hcond
      · exact Or.inl (not_not.mp hcond)
      · refine Or.inr fun e he hne => ?_
        exact hcond (List.any_eq_true.mpr ⟨e, he, by simp [hne]⟩)

theorem renameFs_mem_of_ne {old new : Name} {fs fs' : List Entry} {e : Entry}
    (h : renameFs old new fs = .ok fs') (he : e ∈ fs) (hne : e.name ≠ old) : e ∈ fs' := by
  rw [renameFs_ok_shape h]
  have : renSubst old new e = e := by unfold renSubst; rw [if_neg hne]
  rw [← this]
  exact List.mem_map_of_mem _ he

theorem renameFs_mem_src {old new : Name} {fs fs' : List Entry} {e : Entry}
    (h : renameFs old new fs = .ok fs') (he : e ∈ fs) (heq : e.name = old) :
    Entry.mk new e.isDir ∈ fs' := by
  rw [renameFs_ok_shape h]
  have : renSubst old new e = Entry.mk new e.isDir := by unfold renSubst; rw [if_pos heq]
  rw [← this]
  exact List.mem_map_of_mem _ he

theorem renameFs_mem_inv {old new : Name} {fs fs' : List Entry} {e' : Entry}
    (h : renameFs old new fs = .ok fs') (he : e' ∈ fs') :
    ∃ e ∈ fs, e' = renSubst old new e := by
  rw [renameFs_ok_shape h] at he
  rcases List.mem_map.mp he with ⟨e, hmem, heq⟩
  exact ⟨e, hmem, heq.symm⟩

theorem nodup_map_subst {old new : Name} {l : List Name}
    (hn : l.Nodup) (hnew : ¬ new ∈ l) :
    (l.map (fun s => if s = old then new else s)).Nodup := by
  induction l with
  | nil => simp
  | cons s t ih =>
    rw [List.nodup_cons] at hn
    rw [List.map_cons, List.nodup_cons]
    refine ⟨?_, ih hn.2 (fun hx => hnew (List.mem_cons_of_mem s hx))⟩
    intro hmem
    rcases List.mem_map.mp hmem with ⟨x, hx, hxe⟩
    by_cases hso : s = old
    · rw [if_pos hso] at hxe
      by_cases hxo : x = old
      · rw [hxo, ← hso] at hx; exact hn.1 hx
      · rw [if_neg hxo] at hxe
        rw [hxe] at hx
        exact hnew (List.mem_cons_of_mem s hx)
    · rw [if_neg hso] at hxe
      by_cases hxo : x = old
      · rw [if_pos hxo] at hxe
        exact hnew (by rw [hxe]; exact List.mem_cons_self s t)
      · rw [if_neg hxo] at hxe
        rw [hxe] at hx
        exact hn.1 hx

theorem renameFs_names_nodup {old new : Name} {fs fs' : List Entry}
    (hn : (fs.map Entry.name).Nodup) (h : renameFs old new fs = .ok fs') :
    (fs'.map Entry.name).Nodup := by
  have hshape := renameFs_ok_shape h
  have hmapeq : fs'.map Entry.name =
      (fs.map Entry.name).map (fun s => if s = old then new else s) := by
    rw [hshape, List.map_map, List.map_map]
    refine List.map_congr_left fun e _ => ?_
    simp only [Function.comp_apply, renSubst]
    split <;> simp_all
  rcases renameFs_ok_tgt h with heq | hne
  · have : ∀ s ∈ fs.map Entry.name, (if s = old then new else s) = s := by
      intro s _; split <;> simp_all
    rw [hmapeq, List.map_congr_left this]
    simpa using hn
  · have hnew : ¬ new ∈ fs.map Entry.name := by
      intro hmem
      rcases List.mem_map.mp hmem with ⟨e, he, hename⟩
      exact hne e he hename
    rw [hmapeq]
    exact nodup_map_subst hn hnew

/-! ## The scan for a matching directory -/

theorem findMatch_some {k : Nat} :
    ∀ {fs : List Entry} {nm l : Name}, findMatch k fs = some (nm, l) →
      ∃ e ∈ fs, e.name = nm ∧ e.isDir = true ∧ parseName e.name = some (k, l) := by
  intro fs
  induction fs with
  | nil => intro nm l h; simp [findMatch] at h
  | cons e t ih =>
    intro nm l h
    simp only [findMatch] at h
    split at h
    next hdir =>
      rcases hp : parseName e.name with _ | ⟨n, l0⟩ <;> simp only [hp] at h
      · rcases ih h with ⟨e', hmem, he'⟩
        exact ⟨e', List.mem_cons_of_mem e hmem, he'⟩
      · split at h
        next hnk =>
          rw [Option.some_inj, Prod.mk.injEq] at h
          exact ⟨e, List.mem_cons_self e t, h.1, hdir, by rw [hp, hnk, h.2]⟩
        next =>
          rcases ih h with ⟨e', hmem, he'⟩
          exact ⟨e', List.mem_cons_of_mem e hmem, he'⟩
    next =>
      rcases ih h with ⟨e', hmem, he'⟩
      exact ⟨e', List.mem_cons_of_mem e hmem, he'⟩

theorem findMatch_parse {k : Nat} {fs : List Entry} {nm l : Name}
    (h : findMatch k fs = some (nm, l)) : parseName nm = some (k, l) := by
  rcases findMatch_some h with ⟨e, _, hname, _, hp⟩
  rw [← hname]; exact hp

theorem findMatch_eq_none {k : Nat} :
    ∀ {fs : List Entry},
      (∀ e ∈ fs, e.isDir = true → ∀ l, parseName e.name ≠ some (k, l)) →
      findMatch k fs = none := by
  intro fs
  induction fs with
  | nil => intro _; rfl
  | cons e t ih =>
    intro h
    simp only [findMatch]
    split
    next hdir =>
      rcases hp : parseName e.name with _ | ⟨n, l0⟩ <;> simp only [hp]
      · exact ih fun e' he' => h e' (List.mem_cons_of_mem e he')
      · have hnk : n ≠ k := by
          intro hcontra
          exact h e (List.mem_cons_self e t) hdir l0 (by rw [hp, hcontra])
        rw [if_neg hnk]
        exact ih fun e' he' => h e' (List.mem_cons_of_mem e he')
    next => exact ih fun e' he' => h e' (List.mem_cons_of_mem e he')

theorem findMatch_first {k : Nat} :
    ∀ (pre : List Entry) {e : Entry} (post : List Entry) {l : Name},
      (∀ e' ∈ pre, e'.isDir = true → ∀ l', parseName e'.name ≠ some (k, l')) →
      e.isDir = true → parseName e.name = some (k, l) →
      findMatch k (pre ++ e :: post) = some (e.name, l) := by
  intro pre
  induction pre with
  | nil =>
    intro e post l _ hd hp
    simp [findMatch, hd, hp]
  | cons e0 t ih =>
    intro e post l hfirst hd hp
    rw [List.cons_append]
    simp only [findMatch]
    split
    next hdir =>
      rcases hp0 : parseName e0.name with _ | ⟨n, l0⟩ <;> simp only [hp0]
      · exact ih post (fun e' he' => hfirst e' (List.mem_cons_of_mem e0 he')) hd hp
      · have hnk : n ≠ k := by
          intro hcontra
          exact hfirst e0 (List.mem_cons_self e0 t) hdir l0 (by rw [hp0, hcontra])
        rw [if_neg hnk]
        exact ih post (fun e' he' => hfirst e' (List.mem_cons_of_mem e0 he')) hd hp
    next => exact ih post (fun e' he' => hfirst e' (List.mem_cons_of_mem e0 he')) hd hp

theorem findMatch_of_uniq {k : Nat} :
    ∀ {fs : List Entry} {e : Entry} {l : Name}, e ∈ fs → e.isDir = true →
      parseName e.name = some (k, l) →
      (∀ e' ∈ fs, e'.isDir = true → ∀ l', parseName e'.name = some (k, l') →
        e'.name = e.name) →
      findMatch k fs = some (e.name, l) := by
  intro fs
  induction fs with
  | nil => intro e l he; simp at he
  | cons e0 t ih =>
    intro e l he hd hp huniq
    by_cases hm : e0.isDir = true ∧ ∃ l0, parseName e0.name = some (k, l0)
    · rcases hm with ⟨hdir0, l0, hp0⟩
      have hname := huniq e0 (List.mem_cons_self e0 t) hdir0 l0 hp0
      have hl0 : l0 = l := by
        have h2 := hp0
        rw [hname, hp, Option.some_inj, Prod.mk.injEq] at h2
        exact h2.2.symm
      simp only [findMatch]
      rw [if_pos hdir0]
      simp only [hp0]
      simp [hl0, hname]
    · have hem : e ∈ t := by
        rcases List.mem_cons.mp he with rfl | hmem
        · exact absurd ⟨hd, l, hp⟩ hm
        · exact hmem
      have hrec := ih hem hd hp
        (fun e' he' => huniq e' (List.mem_cons_of_mem e0 he'))
      simp only [findMatch]
      split
      next hdir0 =>
        rcases hp0 : parseName e0.name with _ | ⟨n, l0⟩ <;> simp only [hp0]
        · exact hrec
        · have hnk : n ≠ k := by
            intro hcontra
            exact hm ⟨hdir0, l0, by rw [hp0, hcontra]⟩
          rw [if_neg hnk]
          exact hrec
      next => exact hrec

/-! ## Lookup and the temp_renames dict -/

theorem lookupL_mem {α : Type} {k : Nat} {v : α} :
    ∀ {tr : List (Nat × α)}, lookupL k tr = some v → (k, v) ∈ tr := by
  intro tr
  induction tr with
  | nil => intro h; simp [lookupL] at h
  | cons p t ih =>
    rcases p with ⟨k0, v0⟩
    intro h
    unfold lookupL at h
    split at h
    next heq =>
      rw [Option.some_inj] at h
      rw [← heq, ← h]
      exact List.mem_cons_self _ _
    next => exact List.mem_cons_of_mem _ (ih h)

theorem lookupL_mem_keys {α : Type} {k : Nat} {v : α} {tr : List (Nat × α)}
    (h : lookupL k tr = some v) : k ∈ tr.map Prod.fst := by
  exact List.mem_map.mpr ⟨(k, v), lookupL_mem h, rfl⟩

theorem lookupL_of_mem_nodup {α : Type} {k : Nat} {v : α} :
    ∀ {m : List (Nat × α)}, (m.map Prod.fst).Nodup → (k, v) ∈ m →
      lookupL k m = some v := by
  intro m
  induction m with
  | nil => intro _ h; simp at h
  | cons p t ih =>
    rcases p with ⟨k0, v0⟩
    intro hn hm
    rw [List.map_cons, List.nodup_cons] at hn
    rcases List.mem_cons.mp hm with heq | hmem
    · rw [Prod.mk.injEq] at heq
      unfold lookupL
      rw [if_pos heq.1.symm, heq.2]
    · have hk : k0 ≠ k := by
        intro hcontra
        exact hn.1 (by rw [hcontra]; exact List.mem_map.mpr ⟨(k, v), hmem, rfl⟩)
      unfold lookupL
      rw [if_neg hk]
      exact ih hn.2 hmem

theorem lookupL_isSome_of_mem_keys {α : Type} {k : Nat} :
    ∀ {m : List (Nat × α)}, k ∈ m.map Prod.fst → ∃ v, lookupL k m = some v := by
  intro m
  induction m with
  | nil => intro h; simp at h
  | cons p t ih =>
    rcases p with ⟨k0, v0⟩
    intro hm
    by_cases hk : k0 = k
    · exact ⟨v0, by unfold lookupL; rw [if_pos hk]⟩
    · rw [List.map_cons, List.mem_cons] at hm
      rcases hm with heq | hmem
      · exact absurd heq.symm hk
      · rcases ih hmem with ⟨v, hv⟩
        exact ⟨v, by unfold lookupL; rw [if_neg hk]; exact hv⟩

theorem insertTR_mem {tr : TR} {k : Nat} {v : Name × Name} {p : Nat × Name × Name}
    (h : p ∈ insertTR tr k v) : p ∈ tr ∨ p = (k, v) := by
  unfold insertTR at h
  split at h
  · rcases List.mem_map.mp h with ⟨q, hq, hqe⟩
    by_cases hqk : q.1 = k
    · rw [if_pos hqk] at hqe; exact Or.inr hqe.symm
    · rw [if_neg hqk] at hqe; exact Or.inl (hqe ▸ hq)
  · rcases List.mem_append.mp h with hmem | hmem
    · exact Or.inl hmem
    · exact Or.inr (List.mem_singleton.mp hmem)

theorem lookupL_map_overwrite {k : Nat} {v : Name × Name} :
    ∀ {tr : TR}, tr.any (fun p => p.1 = k) = true →
      lookupL k (tr.map (fun p => if p.1 = k then (k, v) else p)) = some v := by
  intro tr
  induction tr with
  | nil => intro h; simp at h
  | cons p t ih =>
    rcases p with ⟨k0, v0⟩
    intro h
    by_cases hk : k0 = k
    · simp only [List.map_cons, if_pos hk]
      unfold lookupL
      rw [if_pos rfl]
    · simp only [List.map_cons, if_neg hk]
      unfold lookupL
      rw [if_neg hk]
      refine ih ?_
      rcases List.any_eq_true.mp h with ⟨q, hq, hqk⟩
      rcases List.mem_cons.mp hq with rfl | hmem
      · simp at hqk; exact absurd hqk hk
      · exact List.any_eq_true.mpr ⟨q, hmem, hqk⟩

theorem lookupL_cons {α : Type} (k k0 : Nat) (v0 : α) (t : List (Nat × α)) :
    lookupL k ((k0, v0) :: t) = if k0 = k then some v0 else lookupL k t := rfl

theorem lookupL_append_nomem {α : Type} {k : Nat} {s : List (Nat × α)} :
    ∀ {tr : List (Nat × α)}, tr.any (fun p => p.1 = k) = false →
      lookupL k (tr ++ s) = lookupL k s := by
  intro tr
  induction tr with
  | nil => intro _; rfl
  | cons p t ih =>
    rcases p with ⟨k0, v0⟩
    intro h
    rw [List.any_cons, Bool.or_eq_false_iff] at h
    have hk : k0 ≠ k := by simpa using h.1
    rw [List.cons_append, lookupL_cons, if_neg hk]
    exact ih h.2

theorem lookupL_insertTR_self (tr : TR) (k : Nat) (v : Name × Name) :
    lookupL k (insertTR tr k v) = some v := by
  unfold insertTR
  split
  next h => exact lookupL_map_overwrite h
  next h =>
    rw [lookupL_append_nomem (Bool.not_eq_true _ ▸ h), lookupL_cons, if_pos rfl]

theorem lookupL_map_ne {k k' : Nat} {v : Name × Name} (h : k ≠ k') :
    ∀ (tr : TR), lookupL k (tr.map (fun p => if p.1 = k' then (k', v) else p)) =
      lookupL k tr := by
  intro tr
  induction tr with
  | nil => rfl
  | cons p t ih =>
    rcases p with ⟨k0, v0⟩
    by_cases hk : k0 = k'
    · simp only [List.map_cons, if_pos hk]
      rw [lookupL_cons, lookupL_cons,
        if_neg (fun hc => h hc.symm), if_neg (fun hc => h (hk ▸ hc).symm)]
      exact ih
    · simp only [List.map_cons, if_neg hk]
      rw [lookupL_cons, lookupL_cons]
      split <;> [rfl; exact ih]

theorem lookupL_append_ne {k k' : Nat} {v : Name × Name} (h : k ≠ k') :
    ∀ (tr : TR), lookupL k (tr ++ [(k', v)]) = lookupL k tr := by
  intro tr
  induction tr with
  | nil =>
    rw [List.nil_append, lookupL_cons, if_neg (fun hc => h hc.symm)]
  | cons p t ih =>
    rcases p with ⟨k0, v0⟩
    rw [List.cons_append, lookupL_cons, lookupL_cons]
    split <;> [rfl; exact ih]

theorem lookupL_insertTR_ne {tr : TR} {k k' : Nat} {v : Name × Name} (h : k ≠ k') :
    lookupL k (insertTR tr k' v) = lookupL k tr := by
  unfold insertTR
  split
  · exact lookupL_map_ne h tr
  · exact lookupL_append_ne h tr

theorem insertTR_keys_nodup {tr : TR} {k : Nat} {v : Name × Name}
    (h : (tr.map Prod.fst).Nodup) : ((insertTR tr k v).map Prod.fst).Nodup := by
  unfold insertTR
  split
  next =>
    have : (tr.map (fun p => if p.1 = k then (k, v) else p)).map Prod.fst =
        tr.map Prod.fst := by
      rw [List.map_map]
      refine List.map_congr_left fun p _ => ?_
      by_cases hp : p.1 = k <;> simp [hp]
    rw [this]; exact h
  next hany =>
    have hk : ¬ k ∈ tr.map Prod.fst := by
      intro hmem
      rcases List.mem_map.mp hmem with ⟨q, hq, hqk⟩
      exact hany (List.any_eq_true.mpr ⟨q, hq, by simp [hqk]⟩)
    rw [List.map_append]
    simp only [List.map_cons, List.map_nil]
    rw [List.nodup_append]
    refine ⟨h, List.nodup_singleton k, fun a ha hmem => ?_⟩
    rw [List.mem_singleton] at hmem
    exact hk (hmem ▸ ha)

/-! ## Phase 1: invariants -/

/-- Entries whose name cannot match any listed key are untouched by phase 1. -/
theorem phase1T_preserves {m : List (Nat × Nat)} :
    ∀ {ks : List Nat} {fs : List Entry} {tr : TR} {fs1 : List Entry} {tr1 : TR}
      {e : Entry},
      (phase1T m ks fs tr).1 = .ok (fs1, tr1) → e ∈ fs →
      (∀ k ∈ ks, ∀ l, parseName e.name ≠ some (k, l)) → e ∈ fs1 := by
  intro ks
  induction ks with
  | nil =>
    intro fs tr fs1 tr1 e h he _
    simp only [phase1T] at h
    rw [Except.ok.injEq, Prod.mk.injEq] at h
    exact h.1 ▸ he
  | cons k ks ih =>
    intro fs tr fs1 tr1 e h he hc
    simp only [phase1T] at h
    rcases hlk : lookupL k m with _ | n <;> simp only [hlk] at h
    · exact ih h he fun k' hk' => hc k' (List.mem_cons_of_mem k hk')
    · rcases hfm : findMatch k fs with _ | ⟨nm, l0⟩ <;> simp only [hfm] at h
      · exact ih h he fun k' hk' => hc k' (List.mem_cons_of_mem k hk')
      · rcases hrn : renameFs nm (tempName n l0) fs with err | fs' <;>
          simp only [hrn] at h
        · simp at h
        · have hne : e.name ≠ nm := by
            intro hceq
            have hpnm := findMatch_parse hfm
            rw [← hceq] at hpnm
            exact hc k (List.mem_cons_self k ks) l0 hpnm
          exact ih h (renameFs_mem_of_ne hrn he hne)
            fun k' hk' => hc k' (List.mem_cons_of_mem k hk')

/-- Any property of the records inserted by phase 1 steps is an invariant of
the temp_renames dict. -/
theorem phase1T_tr_inv {m : List (Nat × Nat)} (P : Nat × Name × Name → Prop)
    (hstep : ∀ n l, P (n, tempName n l, l)) :
    ∀ {ks : List Nat} {fs : List Entry} {tr : TR} {fs1 : List Entry} {tr1 : TR},
      (phase1T m ks fs tr).1 = .ok (fs1, tr1) →
      (∀ p ∈ tr, P p) → ∀ p ∈ tr1, P p := by
  intro ks
  induction ks with
  | nil =>
    intro fs tr fs1 tr1 h htr
    simp only [phase1T] at h
    rw [Except.ok.injEq, Prod.mk.injEq] at h
    exact h.2 ▸ htr
  | cons k ks ih =>
    intro fs tr fs1 tr1 h htr
    simp only [phase1T] at h
    rcases hlk : lookupL k m with _ | n <;> simp only [hlk] at h
    · exact ih h htr
    · rcases hfm : findMatch k fs with _ | ⟨nm, l0⟩ <;> simp only [hfm] at h
      · exact ih h htr
      · rcases hrn : renameFs nm (tempName n l0) fs with err | fs' <;>
          simp only [hrn] at h
        · simp at h
        · refine ih h fun p hp => ?_
          rcases insertTR_mem hp with hmem | rfl
          · exact htr p hmem
          · exact hstep n l0

/-- Like the record invariant, but the inserted key may be constrained through
the renumbering map. -/
theorem phase1T_tr_keys {m : List (Nat × Nat)} :
    ∀ {ks : List Nat} {fs : List Entry} {tr : TR} {fs1 : List Entry} {tr1 : TR},
      (phase1T m ks fs tr).1 = .ok (fs1, tr1) →
      (∀ p ∈ tr, p.1 ∈ m.map Prod.snd) → ∀ p ∈ tr1, p.1 ∈ m.map Prod.snd := by
  intro ks
  induction ks with
  | nil =>
    intro fs tr fs1 tr1 h htr
    simp only [phase1T] at h
    rw [Except.ok.injEq, Prod.mk.injEq] at h
    exact h.2 ▸ htr
  | cons k ks ih =>
    intro fs tr fs1 tr1 h htr
    simp only [phase1T] at h
    rcases hlk : lookupL k m with _ | n <;> simp only [hlk] at h
    · exact ih h htr
    · rcases hfm : findMatch k fs with _ | ⟨nm, l0⟩ <;> simp only [hfm] at h
      · exact ih h htr
      · rcases hrn : renameFs nm (tempName n l0) fs with err | fs' <;>
          simp only [hrn] at h
        · simp at h
        · refine ih h fun p hp => ?_
          rcases insertTR_mem hp with hmem | rfl
          · exact htr p hmem
          · exact List.mem_map.mpr ⟨(k, n), lookupL_mem hlk, rfl⟩

/-- Phase 1 keeps the keys of temp_renames distinct. -/
theorem phase1T_keys_nodup {m : List (Nat × Nat)} :
    ∀ {ks : List Nat} {fs : List Entry} {tr : TR} {fs1 : List Entry} {tr1 : TR},
      (phase1T m ks fs tr).1 = .ok (fs1, tr1) →
      (tr.map Prod.fst).Nodup → (tr1.map Prod.fst).Nodup := by
  intro ks
  induction ks with
  | nil =>
    intro fs tr fs1 tr1 h htr
    simp only [phase1T] at h
    rw [Except.ok.injEq, Prod.mk.injEq] at h
    exact h.2 ▸ htr
  | cons k ks ih =>
    intro fs tr fs1 tr1 h htr
    simp only [phase1T] at h
    rcases hlk : lookupL k m with _ | n <;> simp only [hlk] at h
    · exact ih h htr
    · rcases hfm : findMatch k fs with _ | ⟨nm, l0⟩ <;> simp only [hfm] at h
      · exact ih h htr
      · rcases hrn : renameFs nm (tempName n l0) fs with err | fs' <;>
          simp only [hrn] at h
        · simp at h
        · exact ih h (insertTR_keys_nodup htr)

/-- A record of temp_renames under a key no remaining step writes to is
unchanged by phase 1. -/
theorem phase1T_lookup_pres {m : List (Nat × Nat)} {n : Nat} :
    ∀ {ks : List Nat} {fs : List Entry} {tr : TR} {fs1 : List Entry} {tr1 : TR},
      (phase1T m ks fs tr).1 = .ok (fs1, tr1) →
      (∀ k ∈ ks, ∀ n', lookupL k m = some n' → n' ≠ n) →
      lookupL n tr1 = lookupL n tr := by
  intro ks
  induction ks with
  | nil =>
    intro fs tr fs1 tr1 h _
    simp only [phase1T] at h
    rw [Except.ok.injEq, Prod.mk.injEq] at h
    rw [h.2]
  | cons k ks ih =>
    intro fs tr fs1 tr1 h hc
    simp only [phase1T] at h
    rcases hlk : lookupL k m with _ | n0 <;> simp only [hlk] at h
    · exact ih h fun k' hk' => hc k' (List.mem_cons_of_mem k hk')
    · rcases hfm : findMatch k fs with _ | ⟨nm, l0⟩ <;> simp only [hfm] at h
      · exact ih h fun k' hk' => hc k' (List.mem_cons_of_mem k hk')
      · rcases hrn : renameFs nm (tempName n0 l0) fs with err | fs' <;>
          simp only [hrn] at h
        · simp at h
        · have hn0 : n0 ≠ n := hc k (List.mem_cons_self k ks) n0 hlk
          rw [ih h fun k' hk' => hc k' (List.mem_cons_of_mem k hk'),
            lookupL_insertTR_ne (fun hcn => hn0 hcn.symm)]

/-- Every entry after phase 1 either was already present or is a staged entry,
whose name does not match the pattern. -/
theorem phase1T_entries {m : List (Nat × Nat)} :
    ∀ {ks : List Nat} {fs : List Entry} {tr : TR} {fs1 : List Entry} {tr1 : TR},
      (phase1T m ks fs tr).1 = .ok (fs1, tr1) →
      ∀ e ∈ fs1, e ∈ fs ∨ parseName e.name = none := by
  intro ks
  induction ks with
  | nil =>
    intro fs tr fs1 tr1 h e he
    simp only [phase1T] at h
    rw [Except.ok.injEq, Prod.mk.injEq] at h
    exact Or.inl (h.1 ▸ he)
  | cons k ks ih =>
    intro fs tr fs1 tr1 h e he
    simp only [phase1T] at h
    rcases hlk : lookupL k m with _ | n <;> simp only [hlk] at h
    · exact ih h e he
    · rcases hfm : findMatch k fs with _ | ⟨nm, l0⟩ <;> simp only [hfm] at h
      · exact ih h e he
      · rcases hrn : renameFs nm (tempName n l0) fs with err | fs' <;>
          simp only [hrn] at h
        · simp at h
        · rcases ih h e he with hmem | hnone
          · rcases renameFs_mem_inv hrn hmem with ⟨e0, he0, rfl⟩
            unfold renSubst
            split
            · exact Or.inr (parseName_tempName n l0)
            · exact Or.inl he0
          · exact Or.inr hnone

/-- Renaming a matching directory to a staged name keeps the ordinals of the
matching directories unique. -/
theorem OrdUniq_rename {fs fs' : List Entry} {nm tmp : Name}
    (hu : OrdUniq fs) (htmp : parseName tmp = none)
    (h : renameFs nm tmp fs = .ok fs') : OrdUniq fs' := by
  intro e1 he1 e2 he2 hd1 hd2 k l1 l2 hp1 hp2
  rcases renameFs_mem_inv h he1 with ⟨e01, he01, rfl⟩
  rcases renameFs_mem_inv h he2 with ⟨e02, he02, rfl⟩
  by_cases h1 : e01.name = nm
  · have hx : parseName tmp = some (k, l1) := by
      rw [renSubst, if_pos h1] at hp1
      exact hp1
    rw [htmp] at hx
    exact absurd hx (by simp)
  · by_cases h2 : e02.name = nm
    · have hx : parseName tmp = some (k, l2) := by
        rw [renSubst, if_pos h2] at hp2
        exact hp2
      rw [htmp] at hx
      exact absurd hx (by simp)
    · simp only [renSubst, if_neg h1, if_neg h2] at hp1 hp2 hd1 hd2 ⊢
      exact hu e01 he01 e02 he02 hd1 hd2 k l1 l2 hp1 hp2

/-- The central phase 1 lemma: when a listed key owns a matching directory and
no other listed key writes to its new ordinal, a successful phase 1 stages that
directory under its temporary name and records it under the new ordinal. -/
theorem phase1T_key {m : List (Nat × Nat)} :
    ∀ {ks : List Nat} {fs : List Entry} {tr : TR} {fs1 : List Entry} {tr1 : TR}
      {k n : Nat} {e : Entry} {l : Name},
      (phase1T m ks fs tr).1 = .ok (fs1, tr1) → ks.Nodup → k ∈ ks →
      lookupL k m = some n →
      (∀ k' ∈ ks, k' ≠ k → ∀ n', lookupL k' m = some n' → n' ≠ n) →
      e ∈ fs → e.isDir = true → parseName e.name = some (k, l) → OrdUniq fs →
      lookupL n tr1 = some (tempName n l, l) ∧
        Entry.mk (tempName n l) true ∈ fs1 := by
  intro ks
  induction ks with
  | nil => intro fs tr fs1 tr1 k n e l h _ hk; simp at hk
  | cons k0 ks ih =>
    intro fs tr fs1 tr1 k n e l h hnd hk hlk hne he hd hp hu
    rw [List.nodup_cons] at hnd
    simp only [phase1T] at h
    by_cases hk0 : k = k0
    · subst hk0
      simp only [hlk] at h
      have hfm : findMatch k fs = some (e.name, l) :=
        findMatch_of_uniq he hd hp
          (fun e' he' hd' l' hp' => hu e' he' e he hd' hd k l' l hp' hp)
      simp only [hfm] at h
      rcases hrn : renameFs e.name (tempName n l) fs with err | fs' <;>
        simp only [hrn] at h
      · simp at h
      · have htmem : Entry.mk (tempName n l) true ∈ fs' := by
          have := renameFs_mem_src hrn he rfl
          rwa [hd] at this
        have hfs1 : Entry.mk (tempName n l) true ∈ fs1 :=
          phase1T_preserves h htmem
            (by intro k' _ l' hcp; rw [parseName_tempName] at hcp; exact absurd hcp (by simp))
        have hlkpres : lookupL n tr1 = lookupL n (insertTR tr n (tempName n l, l)) :=
          phase1T_lookup_pres h
            (fun k' hk' n' hlk' => hne k' (List.mem_cons_of_mem _ hk')
              (fun hcc => hnd.1 (hcc ▸ hk')) n' hlk')
        rw [hlkpres, lookupL_insertTR_self]
        exact ⟨rfl, hfs1⟩
    · have hkmem : k ∈ ks := by
        rcases List.mem_cons.mp hk with rfl | hmem
        · exact absurd rfl hk0
        · exact hmem
      have hne' : ∀ k' ∈ ks, k' ≠ k → ∀ n', lookupL k' m = some n' → n' ≠ n :=
        fun k' hk' => hne k' (List.mem_cons_of_mem k0 hk')
      rcases hlk0 : lookupL k0 m with _ | n0 <;> simp only [hlk0] at h
      · exact ih h hnd.2 hkmem hlk hne' he hd hp hu
      · rcases hfm : findMatch k0 fs with _ | ⟨nm, l0⟩ <;> simp only [hfm] at h
        · exact ih h hnd.2 hkmem hlk hne' he hd hp hu
        · rcases hrn : renameFs nm (tempName n0 l0) fs with err | fs' <;>
            simp only [hrn] at h
          · simp at h
          · have hename : e.name ≠ nm := by
              intro hceq
              have hpnm := findMatch_parse hfm
              rw [← hceq, hp, Option.some_inj, Prod.mk.injEq] at hpnm
              exact hk0 hpnm.1
            exact ih h hnd.2 hkmem hlk hne'
              (renameFs_mem_of_ne hrn he hename) hd hp
              (OrdUniq_rename hu (parseName_tempName n0 l0) hrn)

/-! ## Phase 2: invariants -/

/-- Entries whose name is no recorded temporary name are untouched by
phase 2. -/
theorem phase2T_preserves {tr : TR} :
    ∀ {ks : List Nat} {fs fs2 : List Entry} {e : Entry},
      (phase2T tr ks fs).1 = .ok fs2 → e ∈ fs →
      (∀ k ∈ ks, ∀ v, lookupL k tr = some v → v.1 ≠ e.name) → e ∈ fs2 := by
  intro ks
  induction ks with
  | nil =>
    intro fs fs2 e h he _
    simp only [phase2T] at h
    rw [Except.ok.injEq] at h
    exact h ▸ he
  | cons k ks ih =>
    intro fs fs2 e h he hc
    simp only [phase2T] at h
    rcases hlk : lookupL k tr with _ | ⟨tname, l⟩ <;> simp only [hlk] at h
    · simp at h
    · rcases hrn : renameFs tname (finalName k l) fs with err | fs' <;>
        simp only [hrn] at h
      · simp at h
      · have hne : e.name ≠ tname :=
          fun hc' => hc k (List.mem_cons_self k ks) (tname, l) hlk hc'.symm
        exact ih h (renameFs_mem_of_ne hrn he (fun hc' => hne hc'))
          fun k' hk' => hc k' (List.mem_cons_of_mem k hk')

/-- The central phase 2 lemma: a successful phase 2 leaves every recorded
entry under its final name. -/
theorem phase2T_key {tr : TR}
    (htemp : ∀ p ∈ tr, p.2.1 = tempName p.1 p.2.2) :
    ∀ {ks : List Nat} {fs fs2 : List Entry} {k : Nat} {tname lab : Name},
      (phase2T tr ks fs).1 = .ok fs2 → ks.Nodup → k ∈ ks →
      lookupL k tr = some (tname, lab) → Entry.mk tname true ∈ fs →
      Entry.mk (finalName k lab) true ∈ fs2 := by
  intro ks
  induction ks with
  | nil => intro fs fs2 k tname lab h _ hk; simp at hk
  | cons k0 ks ih =>
    intro fs fs2 k tname lab h hnd hk hlk hmem
    rw [List.nodup_cons] at hnd
    simp only [phase2T] at h
    have htn : tname = tempName k lab := htemp (k, tname, lab) (lookupL_mem hlk)
    by_cases hk0 : k = k0
    · subst hk0
      simp only [hlk] at h
      rcases hrn : renameFs tname (finalName k lab) fs with err | fs' <;>
        simp only [hrn] at h
      · simp at h
      · have hfin : Entry.mk (finalName k lab) true ∈ fs' :=
          renameFs_mem_src hrn hmem rfl
        refine phase2T_preserves h hfin fun k' hk' v hlk' => ?_
        have hv := htemp (k', v) (lookupL_mem hlk')
        rw [hv]
        exact tempName_ne_finalName k' v.2 k lab
    · have hkmem : k ∈ ks := by
        rcases List.mem_cons.mp hk with rfl | hmem'
        · exact absurd rfl hk0
        · exact hmem'
      rcases hlk0 : lookupL k0 tr with _ | ⟨tn0, l0⟩ <;> simp only [hlk0] at h
      · simp at h
      · rcases hrn : renameFs tn0 (finalName k0 l0) fs with err | fs' <;>
          simp only [hrn] at h
        · simp at h
        · have htn0 : tn0 = tempName k0 l0 := htemp (k0, tn0, l0) (lookupL_mem hlk0)
          have hne : tname ≠ tn0 := by
            rw [htn, htn0]
            intro hc
            exact hk0 (tempName_inj hc).1
          exact ih h hnd.2 hkmem hlk (renameFs_mem_of_ne hrn hmem hne)

/-- Every entry after phase 2 either was already present or carries a final
name of a listed key. -/
theorem phase2T_entries {tr : TR} :
    ∀ {ks : List Nat} {fs fs2 : List Entry},
      (phase2T tr ks fs).1 = .ok fs2 →
      ∀ e ∈ fs2, e ∈ fs ∨ ∃ k ∈ ks, ∃ l, e.name = finalName k l := by
  intro ks
  induction ks with
  | nil =>
    intro fs fs2 h e he
    simp only [phase2T] at h
    rw [Except.ok.injEq] at h
    exact Or.inl (h ▸ he)
  | cons k ks ih =>
    intro fs fs2 h e he
    simp only [phase2T] at h
    rcases hlk : lookupL k tr with _ | ⟨tname, l⟩ <;> simp only [hlk] at h
    · simp at h
    · rcases hrn : renameFs tname (finalName k l) fs with err | fs' <;>
        simp only [hrn] at h
      · simp at h
      · rcases ih h e he with hmem | ⟨k', hk', l', hl'⟩
        · rcases renameFs_mem_inv hrn hmem with ⟨e0, he0, rfl⟩
          unfold renSubst
          split
          · exact Or.inr ⟨k, List.mem_cons_self k ks, l, rfl⟩
          · exact Or.inl he0
        · exact Or.inr ⟨k', List.mem_cons_of_mem k hk', l', hl'⟩

/-! ## The key orders of the two phases -/

instance : IsTotal Nat (fun a b => b ≤ a) := ⟨fun a b => le_total b a⟩

instance : IsTrans Nat (fun a b => b ≤ a) := ⟨fun _ _ _ h1 h2 => le_trans h2 h1⟩

instance : IsTotal Nat (fun a b => a ≤ b) := ⟨fun a b => le_total a b⟩

instance : IsTrans Nat (fun a b => a ≤ b) := ⟨fun _ _ _ h1 h2 => le_trans h1 h2⟩

theorem p1Keys_perm (m : List (Nat × Nat)) : (p1Keys m).Perm (m.map Prod.fst).dedup :=
  List.perm_insertionSort _ _

theorem p1Keys_nodup (m : List (Nat × Nat)) : (p1Keys m).Nodup :=
  (p1Keys_perm m).nodup_iff.mpr (List.nodup_dedup _)

theorem p1Keys_mem (m : List (Nat × Nat)) (k : Nat) :
    k ∈ p1Keys m ↔ k ∈ m.map Prod.fst :=
  ((p1Keys_perm m).mem_iff).trans (List.mem_dedup)

theorem p1Keys_sorted (m : List (Nat × Nat)) :
    List.Sorted (fun a b => b ≤ a) (p1Keys m) :=
  List.sorted_insertionSort _ _

theorem p1Keys_chain (m : List (Nat × Nat)) :
    List.Chain' (fun a b => b < a) (p1Keys m) := by
  refine List.Pairwise.chain' (((p1Keys_sorted m).and (p1Keys_nodup m)).imp ?_)
  rintro a b ⟨hle, hne⟩
  exact lt_of_le_of_ne hle (fun hc => hne hc.symm)

theorem p2Keys_perm (tr : TR) : (p2Keys tr).Perm (tr.map Prod.fst) :=
  List.perm_insertionSort _ _

theorem p2Keys_nodup {tr : TR} (h : (tr.map Prod.fst).Nodup) : (p2Keys tr).Nodup :=
  (p2Keys_perm tr).nodup_iff.mpr h

theorem p2Keys_mem (tr : TR) (k : Nat) : k ∈ p2Keys tr ↔ k ∈ tr.map Prod.fst :=
  (p2Keys_perm tr).mem_iff

theorem p2Keys_sorted (tr : TR) : List.Sorted (fun a b => a ≤ b) (p2Keys tr) :=
  List.sorted_insertionSort _ _

theorem p2Keys_chain {tr : TR} (h : (tr.map Prod.fst).Nodup) :
    List.Chain' (fun a b => a < b) (p2Keys tr) := by
  refine List.Pairwise.chain' (((p2Keys_sorted tr).and (p2Keys_nodup h)).imp ?_)
  rintro a b ⟨hle, hne⟩
  exact lt_of_le_of_ne hle hne

/-! ## Run-level inversion and more scan lemmas -/

theorem runT_ok_inv {m : List (Nat × Nat)} {fs fs' : List Entry}
    (h : (runT m fs).1 = .ok fs') :
    ∃ fs1 tr, (phase1T m (p1Keys m) fs []).1 = .ok (fs1, tr) ∧
      (phase2T tr (p2Keys tr) fs1).1 = .ok fs' ∧
      (runT m fs).2 = (phase1T m (p1Keys m) fs []).2 ++ (phase2T tr (p2Keys tr) fs1).2 := by
  rcases hp1 : phase1T m (p1Keys m) fs [] with ⟨r1, evs1⟩
  rcases r1 with err | ⟨fs1, tr⟩
  · rw [runT, hp1] at h; simp at h
  · rw [runT, hp1] at h
    refine ⟨fs1, tr, rfl, h, ?_⟩
    rw [runT, hp1]

theorem findMatch_none {k : Nat} :
    ∀ {fs : List Entry}, findMatch k fs = none →
      ∀ e ∈ fs, e.isDir = true → ∀ l, parseName e.name ≠ some (k, l) := by
  intro fs
  induction fs with
  | nil => intro _ e he; simp at he
  | cons e0 t ih =>
    intro h e he hd l hp
    simp only [findMatch] at h
    rcases List.mem_cons.mp he with rfl | hmem
    · rw [if_pos hd] at h
      simp only [hp] at h
      simp at h
    · split at h
      next =>
        rcases hp0 : parseName e0.name with _ | ⟨n, l0⟩ <;> simp only [hp0] at h
        · exact ih h e hmem hd l hp
        · split at h
          · simp at h
          · exact ih h e hmem hd l hp
      next => exact ih h e hmem hd l hp

/-- When no listed key has a matching directory, phase 1 does nothing. -/
theorem phase1T_all_skip {m : List (Nat × Nat)} :
    ∀ {ks : List Nat} {fs : List Entry} {tr : TR},
      (∀ k ∈ ks, findMatch k fs = none) →
      phase1T m ks fs tr = (.ok (fs, tr), []) := by
  intro ks
  induction ks with
  | nil => intro fs tr _; rfl
  | cons k ks ih =>
    intro fs tr hsk
    simp only [phase1T]
    rcases hlk : lookupL k m with _ | n <;> simp only [hlk]
    · exact ih fun k' hk' => hsk k' (List.mem_cons_of_mem k hk')
    · rw [hsk k (List.mem_cons_self k ks)]
      exact ih fun k' hk' => hsk k' (List.mem_cons_of_mem k hk')

/-- After a successful phase 1 no directory matching a listed key remains,
when every listed key occurs in the renumbering map. -/
theorem phase1T_clean {m : List (Nat × Nat)} :
    ∀ {ks : List Nat} {fs : List Entry} {tr : TR} {fs1 : List Entry} {tr1 : TR},
      (phase1T m ks fs tr).1 = .ok (fs1, tr1) → OrdUniq fs →
      (∀ k ∈ ks, ∃ n, lookupL k m = some n) →
      ∀ k ∈ ks, ∀ e ∈ fs1, e.isDir = true → ∀ l, parseName e.name ≠ some (k, l) := by
  intro ks
  induction ks with
  | nil => intro fs tr fs1 tr1 _ _ _ k hk; simp at hk
  | cons k0 ks ih =>
    intro fs tr fs1 tr1 h hu hkm k hk e he hd l hp
    simp only [phase1T] at h
    rcases hlk : lookupL k0 m with _ | n0 <;> simp only [hlk] at h
    · rcases hkm k0 (List.mem_cons_self k0 ks) with ⟨n, hn⟩
      rw [hn] at hlk
      exact absurd hlk (by simp)
    · have hkm' : ∀ k' ∈ ks, ∃ n', lookupL k' m = some n' :=
        fun k' hk' => hkm k' (List.mem_cons_of_mem k0 hk')
      rcases hfm : findMatch k0 fs with _ | ⟨nm, l0⟩ <;> simp only [hfm] at h
      · rcases List.mem_cons.mp hk with rfl | hkmem
        · rcases phase1T_entries h e he with hmem | hnone
          · exact findMatch_none hfm e hmem hd l hp
          · rw [hnone] at hp; exact absurd hp (by simp)
        · exact ih h hu hkm' k hkmem e he hd l hp
      · rcases hrn : renameFs nm (tempName n0 l0) fs with err | fs' <;>
          simp only [hrn] at h
        · simp at h
        · rcases List.mem_cons.mp hk with rfl | hkmem
          · rcases phase1T_entries h e he with hmem | hnone
            · rcases renameFs_mem_inv hrn hmem with ⟨e0, he0, rfl⟩
              by_cases hname : e0.name = nm
              · have hx : parseName (tempName n0 l0) = some (k, l) := by
                  rw [renSubst, if_pos hname] at hp
                  exact hp
                rw [parseName_tempName] at hx
                exact absurd hx (by simp)
              · rw [renSubst, if_neg hname] at hp hd
                rcases findMatch_some hfm with ⟨e1, he1, hn1, hd1, hp1⟩
                exact hname ((hu e0 he0 e1 he1 hd hd1 k l l0 hp hp1).trans hn1)
            · rw [hnone] at hp; exact absurd hp (by simp)
          · exact ih h (OrdUniq_rename hu (parseName_tempName n0 l0) hrn)
              hkm' k hkmem e he hd l hp

/-! ## The issued renames -/

/-- Every rename issued by phase 1 targets a marker-prefixed temporary name. -/
theorem phase1T_evs_tmp {m : List (Nat × Nat)} :
    ∀ {ks : List Nat} {fs : List Entry} {tr : TR},
      ∀ ev ∈ (phase1T m ks fs tr).2, ∃ n l, ev.tgt = tempName n l := by
  intro ks
  induction ks with
  | nil => intro fs tr ev hev; simp [phase1T] at hev
  | cons k ks ih =>
    intro fs tr ev hev
    simp only [phase1T] at hev
    rcases hlk : lookupL k m with _ | n <;> simp only [hlk] at hev
    · exact ih ev hev
    · rcases hfm : findMatch k fs with _ | ⟨nm, l0⟩ <;> simp only [hfm] at hev
      · exact ih ev hev
      · rcases hrn : renameFs nm (tempName n l0) fs with err | fs' <;>
          simp only [hrn] at hev
        · rw [List.mem_singleton] at hev
          exact ⟨n, l0, by rw [hev]⟩
        · rcases List.mem_cons.mp hev with rfl | hmem
          · exact ⟨n, l0, rfl⟩
          · exact ih ev hmem

/-- In a successful phase 1, names stay distinct at every step, and every
issued rename has an unoccupied target at the moment it is issued. -/
theorem phase1T_evs_inv {m : List (Nat × Nat)} :
    ∀ {ks : List Nat} {fs : List Entry} {tr : TR} {fs1 : List Entry} {tr1 : TR},
      (phase1T m ks fs tr).1 = .ok (fs1, tr1) → (fs.map Entry.name).Nodup →
      (fs1.map Entry.name).Nodup ∧
      ∀ ev ∈ (phase1T m ks fs tr).2,
        (ev.pre.map Entry.name).Nodup ∧ ∀ e ∈ ev.pre, e.name ≠ ev.tgt := by
  intro ks
  induction ks with
  | nil =>
    intro fs tr fs1 tr1 h hn
    simp only [phase1T] at h ⊢
    rw [Except.ok.injEq, Prod.mk.injEq] at h
    exact ⟨h.1 ▸ hn, by simp⟩
  | cons k ks ih =>
    intro fs tr fs1 tr1 h hn
    simp only [phase1T] at h ⊢
    rcases hlk : lookupL k m with _ | n <;> simp only [hlk] at h ⊢
    · exact ih h hn
    · rcases hfm : findMatch k fs with _ | ⟨nm, l0⟩ <;> simp only [hfm] at h ⊢
      · exact ih h hn
      · rcases hrn : renameFs nm (tempName n l0) fs with err | fs' <;>
          simp only [hrn] at h ⊢
        · simp at h
        · have hocc : ∀ e ∈ fs, e.name ≠ tempName n l0 := by
            rcases renameFs_ok_tgt hrn with heq | hocc
            · exfalso
              have hpnm := findMatch_parse hfm
              rw [heq, parseName_tempName] at hpnm
              exact absurd hpnm (by simp)
            · exact hocc
          rcases ih h (renameFs_names_nodup hn hrn) with ⟨hfs1, hevs⟩
          refine ⟨hfs1, fun ev hev => ?_⟩
          rcases List.mem_cons.mp hev with rfl | hmem
          · exact ⟨hn, hocc⟩
          · exact hevs ev hmem

/-- In a successful phase 2 over staged records, names stay distinct at every
step, and every issued rename has an unoccupied target at the moment it is
issued. -/
theorem phase2T_evs_inv {tr : TR} (htemp : ∀ p ∈ tr, p.2.1 = tempName p.1 p.2.2) :
    ∀ {ks : List Nat} {fs fs2 : List Entry},
      (phase2T tr ks fs).1 = .ok fs2 → (fs.map Entry.name).Nodup →
      (fs2.map Entry.name).Nodup ∧
      ∀ ev ∈ (phase2T tr ks fs).2,
        (ev.pre.map Entry.name).Nodup ∧ ∀ e ∈ ev.pre, e.name ≠ ev.tgt := by
  intro ks
  induction ks with
  | nil =>
    intro fs fs2 h hn
    simp only [phase2T] at h ⊢
    rw [Except.ok.injEq] at h
    exact ⟨h ▸ hn, by simp⟩
  | cons k ks ih =>
    intro fs fs2 h hn
    simp only [phase2T] at h ⊢
    rcases hlk : lookupL k tr with _ | ⟨tname, l⟩ <;> simp only [hlk] at h ⊢
    · simp at h
    · rcases hrn : renameFs tname (finalName k l) fs with err | fs' <;>
        simp only [hrn] at h ⊢
      · simp at h
      · have hocc : ∀ e ∈ fs, e.name ≠ finalName k l := by
          rcases renameFs_ok_tgt hrn with heq | hocc
          · exfalso
            have htn : tname = tempName k l := htemp (k, tname, l) (lookupL_mem hlk)
            rw [htn] at heq
            exact tempName_ne_finalName k l k l heq
          · exact hocc
        rcases ih h (renameFs_names_nodup hn hrn) with ⟨hfs2, hevs⟩
        refine ⟨hfs2, fun ev hev => ?_⟩
        rcases List.mem_cons.mp hev with rfl | hmem
        · exact ⟨hn, hocc⟩
        · exact hevs ev hmem

/-- A decidable check implying OrdUniq, for concrete listings. -/
def ordUniqB (fs : List Entry) : Bool :=
  fs.all fun e1 => fs.all fun e2 =>
    match e1.isDir, e2.isDir, parseName e1.name, parseName e2.name with
    | true, true, some (k1, _), some (k2, _) =>
      if k1 = k2 then e1.name == e2.name else true
    | _, _, _, _ => true

theorem ordUniqB_spec {fs : List Entry} (h : ordUniqB fs = true) : OrdUniq fs := by
  intro e1 he1 e2 he2 hd1 hd2 k l1 l2 hp1 hp2
  have h1 := List.all_eq_true.mp h e1 he1
  have h2 := List.all_eq_true.mp h1 e2 he2
  rw [hd1, hd2, hp1, hp2] at h2
  simp only [if_pos rfl] at h2
  exact beq_iff_eq.mp h2

/-! ## The claims -/

/-- C1: for a renumbering map that is injective on distinct keys (a
permutation of the affected ordinals, old and new sets possibly overlapping)
and a base directory whose matching children have pairwise distinct ordinals,
after a successful run every directory that existed under an old ordinal that
is a key of the map exists under the corresponding new ordinal, zero-padded to
two digits, with its label suffix unchanged. -/
theorem C1_permutation_rename_correct (m : List (Nat × Nat)) (fs fs' : List Entry)
    (hkeys : (m.map Prod.fst).Nodup) (hvals : (m.map Prod.snd).Nodup)
    (hord : OrdUniq fs) (hrun : run m fs = .ok fs')
    (k n : Nat) (hm : (k, n) ∈ m)
    (e : Entry) (he : e ∈ fs) (hd : e.isDir = true)
    (l : Name) (hp : parseName e.name = some (k, l)) :
    Entry.mk (finalName n l) true ∈ fs' := by
  have hrun' : (runT m fs).1 = .ok fs' := hrun
  rcases runT_ok_inv hrun' with ⟨fs1, tr, h1, h2, _⟩
  have hlk : lookupL k m = some n := lookupL_of_mem_nodup hkeys hm
  have hkmem : k ∈ p1Keys m := (p1Keys_mem m k).mpr (List.mem_map.mpr ⟨(k, n), hm, rfl⟩)
  have hne : ∀ k' ∈ p1Keys m, k' ≠ k → ∀ n', lookupL k' m = some n' → n' ≠ n := by
    intro k' _ hkne n' hlk' hcontra
    subst hcontra
    have hm' := lookupL_mem hlk'
    have heq := List.inj_on_of_nodup_map hvals hm' hm (rfl : ((k', n') : Nat × Nat).2 = (k, n').2)
    rw [Prod.mk.injEq] at heq
    exact hkne heq.1
  rcases phase1T_key h1 (p1Keys_nodup m) hkmem hlk hne he hd hp hord with ⟨hlkn, htmem⟩
  have htemp : ∀ p ∈ tr, p.2.1 = tempName p.1 p.2.2 :=
    phase1T_tr_inv (fun p => p.2.1 = tempName p.1 p.2.2) (fun _ _ => rfl) h1 (by simp)
  have hkeys2 : (tr.map Prod.fst).Nodup := phase1T_keys_nodup h1 (by simp)
  have hn2 : n ∈ p2Keys tr := (p2Keys_mem tr n).mpr (lookupL_mem_keys hlkn)
  exact phase2T_key htemp h2 (p2Keys_nodup hkeys2) hn2 hlkn htmem

/-- Witness for C1 at a concrete overlapping permutation. -/
theorem C1_permutation_rename_correct_witness :
    Entry.mk (finalName 10 (chars "Loops")) true ∈
      ([⟨chars "10. Loops", true⟩, ⟨chars "11. Conditionals", true⟩,
        ⟨chars "12. Arrays", true⟩] : List Entry) :=
  C1_permutation_rename_correct [(8, 10), (9, 11), (10, 12)]
    [⟨chars "08. Loops", true⟩, ⟨chars "09. Conditionals", true⟩,
      ⟨chars "10. Arrays", true⟩] _
    (by decide) (by decide) (ordUniqB_spec (by decide)) (by decide)
    8 10 (by decide) ⟨chars "08. Loops", true⟩ (by decide) rfl
    (chars "Loops") (by decide)

/-- C4: on the listing 08. Loops, 09. Conditionals, 10. Arrays with the map
8 to 10, 9 to 11, 10 to 12, phase 1 runs over the keys in the descending
order 10, 9, 8, the run succeeds with end state 10. Loops, 11. Conditionals,
12. Arrays (no directory lost), and no issued rename targets an occupied
name, although the target ordinal 10 of the key 8 coincides with the
pre-existing literal ordinal 10. -/
theorem C4_scenario :
    p1Keys [(8, 10), (9, 11), (10, 12)] = [10, 9, 8] ∧
    run [(8, 10), (9, 11), (10, 12)]
        [⟨chars "08. Loops", true⟩, ⟨chars "09. Conditionals", true⟩,
          ⟨chars "10. Arrays", true⟩] =
      .ok [⟨chars "10. Loops", true⟩, ⟨chars "11. Conditionals", true⟩,
        ⟨chars "12. Arrays", true⟩] ∧
    ∀ ev ∈ (runT [(8, 10), (9, 11), (10, 12)]
        [⟨chars "08. Loops", true⟩, ⟨chars "09. Conditionals", true⟩,
          ⟨chars "10. Arrays", true⟩]).2,
      ∀ e ∈ ev.pre, e.name ≠ ev.tgt := by
  exact ⟨by decide, by decide, by decide⟩

/-- C5: phase 1 iterates the keys of the map in strictly descending order
(each key exactly once); the scan returns the first matching directory of the
listing; and a step with a match renames that directory to the marker-prefixed
temporary name embedding the new ordinal, records the staged rename under the
new ordinal, and continues with the rest of the keys. -/
theorem C5_phase1_descending_first_match (m : List (Nat × Nat)) :
    List.Chain' (fun a b => b < a) (p1Keys m) ∧
    (∀ k, k ∈ p1Keys m ↔ k ∈ m.map Prod.fst) ∧
    (∀ (k : Nat) (pre : List Entry) (e : Entry) (post : List Entry) (l : Name),
      (∀ e' ∈ pre, e'.isDir = true → ∀ l', parseName e'.name ≠ some (k, l')) →
      e.isDir = true → parseName e.name = some (k, l) →
      findMatch k (pre ++ e :: post) = some (e.name, l)) ∧
    (∀ (ks : List Nat) (k : Nat) (fs : List Entry) (tr : TR) (n : Nat)
       (nm l : Name) (fs1 : List Entry),
      lookupL k m = some n → findMatch k fs = some (nm, l) →
      renameFs nm (tempName n l) fs = .ok fs1 →
      phase1T m (k :: ks) fs tr =
        ((phase1T m ks fs1 (insertTR tr n (tempName n l, l))).1,
          Ev.mk nm (tempName n l) fs ::
            (phase1T m ks fs1 (insertTR tr n (tempName n l, l))).2)) := by
  refine ⟨p1Keys_chain m, fun k => p1Keys_mem m k, ?_, ?_⟩
  · intro k pre e post l hfirst hd hp
    exact findMatch_first pre post hfirst hd hp
  · intro ks k fs tr n nm l fs1 h1 h2 h3
    simp only [phase1T, h1, h2, h3]

/-- Witness for C5 at a concrete map and listing. -/
theorem C5_phase1_descending_first_match_witness :
    findMatch 8 ([] ++ Entry.mk (chars "08. A") true :: [Entry.mk (chars "09. B") true]) =
      some (chars "08. A", chars "A") :=
  (C5_phase1_descending_first_match [(8, 10)]).2.2.1 8 []
    (Entry.mk (chars "08. A") true) [Entry.mk (chars "09. B") true] (chars "A")
    (by simp) rfl (by decide)

/-- C6: phase 2 iterates the recorded new ordinals in strictly ascending order
(each exactly once when the records are distinct), and each step renames the
recorded temporary name to the final name made of the new ordinal zero-padded
to two digits, a period, a space, and the recorded label. -/
theorem C6_phase2_ascending_final (tr : TR) (h : (tr.map Prod.fst).Nodup) :
    List.Chain' (fun a b => a < b) (p2Keys tr) ∧
    (∀ k, k ∈ p2Keys tr ↔ k ∈ tr.map Prod.fst) ∧
    (∀ (n : Nat) (l : Name), finalName n l = pad2 n ++ '.' :: ' ' :: l) ∧
    (∀ (ks : List Nat) (k : Nat) (fs : List Entry) (tname l : Name)
       (fs1 : List Entry),
      lookupL k tr = some (tname, l) →
      renameFs tname (finalName k l) fs = .ok fs1 →
      phase2T tr (k :: ks) fs =
        ((phase2T tr ks fs1).1,
          Ev.mk tname (finalName k l) fs :: (phase2T tr ks fs1).2)) := by
  refine ⟨p2Keys_chain h, fun k => p2Keys_mem tr k, fun n l => rfl, ?_⟩
  intro ks k fs tname l fs1 h1 h2
  simp only [phase2T, h1, h2]

/-- Witness for C6 at a concrete record table. -/
theorem C6_phase2_ascending_final_witness :
    List.Chain' (fun a b => a < b)
      (p2Keys [(11, (chars "TEMP_11. B", chars "B")),
               (10, (chars "TEMP_10. A", chars "A"))]) :=
  (C6_phase2_ascending_final _ (by decide)).1

/-- C9: a key of the map with no matching directory is skipped silently:
nothing is recorded, no rename is issued, no failure is raised, and the run
continues with the remaining keys on an unchanged listing. -/
theorem C9_missing_match_skip (m : List (Nat × Nat)) (ks : List Nat) (k : Nat)
    (fs : List Entry) (tr : TR) (n : Nat)
    (h1 : lookupL k m = some n) (h2 : findMatch k fs = none) :
    phase1T m (k :: ks) fs tr = phase1T m ks fs tr := by
  simp only [phase1T, h1, h2]

/-- Witness for C9 at a concrete key with no match. -/
theorem C9_missing_match_skip_witness :
    phase1T [(8, 10)] (8 :: []) [Entry.mk (chars "notes.txt") false] [] =
      phase1T [(8, 10)] [] [Entry.mk (chars "notes.txt") false] [] :=
  C9_missing_match_skip [(8, 10)] [] 8 [Entry.mk (chars "notes.txt") false] [] 10
    rfl rfl

/-- C10: the staged-rename record is keyed by the new ordinal, so a later
insertion under the same new ordinal overwrites the earlier one, the keys of
the record stay distinct, and phase 2 issues at most one rename per distinct
new ordinal; concretely, with the keys 8 and 9 both mapped to 10, the record
of the key 9 (processed first) is overwritten by the record of the key 8, and
phase 2 issues exactly one rename. -/
theorem C10_duplicate_new_ordinal :
    (∀ (tr : TR) (k : Nat) (v : Name × Name),
      lookupL k (insertTR tr k v) = some v) ∧
    (∀ (m : List (Nat × Nat)) (ks : List Nat) (fs : List Entry) (tr : TR)
       (fs1 : List Entry) (tr1 : TR),
      (phase1T m ks fs tr).1 = .ok (fs1, tr1) → (tr.map Prod.fst).Nodup →
      (tr1.map Prod.fst).Nodup) ∧
    (phase1T [(8, 10), (9, 10)] (p1Keys [(8, 10), (9, 10)])
        [⟨chars "08. A", true⟩, ⟨chars "09. B", true⟩] []).1 =
      .ok ([⟨chars "TEMP_10. A", true⟩, ⟨chars "TEMP_10. B", true⟩],
        [(10, (chars "TEMP_10. A", chars "A"))]) ∧
    (phase2T [(10, (chars "TEMP_10. A", chars "A"))]
        (p2Keys [(10, (chars "TEMP_10. A", chars "A"))])
        [⟨chars "TEMP_10. A", true⟩, ⟨chars "TEMP_10. B", true⟩]).2.length = 1 := by
  refine ⟨lookupL_insertTR_self,
    fun m ks fs tr fs1 tr1 h hn => phase1T_keys_nodup h hn, by decide, by decide⟩

/-- Witness for C10 at concrete records. -/
theorem C10_duplicate_new_ordinal_witness :
    lookupL 10 (insertTR [(10, (chars "TEMP_10. B", chars "B"))] 10
        (chars "TEMP_10. A", chars "A")) =
      some (chars "TEMP_10. A", chars "A") ∧
    (([] : TR).map Prod.fst).Nodup :=
  ⟨C10_duplicate_new_ordinal.1 [(10, (chars "TEMP_10. B", chars "B"))] 10
      (chars "TEMP_10. A", chars "A"),
    C10_duplicate_new_ordinal.2.1 [] [] [] [] [] [] rfl (by decide)⟩

/-- C8: a directory whose leading ordinal is not a key of the map is renamed
in neither phase: it is still present, under its unchanged name, after a
successful run. -/
theorem C8_unmapped_untouched (m : List (Nat × Nat)) (fs fs' : List Entry)
    (hrun : run m fs = .ok fs') (e : Entry) (he : e ∈ fs) (_hd : e.isDir = true)
    (k : Nat) (l : Name) (hp : parseName e.name = some (k, l))
    (hk : ¬ k ∈ m.map Prod.fst) : e ∈ fs' := by
  have hrun' : (runT m fs).1 = .ok fs' := hrun
  rcases runT_ok_inv hrun' with ⟨fs1, tr, h1, h2, _⟩
  have he1 : e ∈ fs1 := by
    refine phase1T_preserves h1 he ?_
    intro k' hk' l' hcp
    rw [hp, Option.some_inj, Prod.mk.injEq] at hcp
    exact hk (hcp.1 ▸ (p1Keys_mem m k').mp hk')
  have htemp : ∀ p ∈ tr, p.2.1 = tempName p.1 p.2.2 :=
    phase1T_tr_inv (fun p => p.2.1 = tempName p.1 p.2.2) (fun _ _ => rfl) h1 (by simp)
  refine phase2T_preserves h2 he1 ?_
  intro k' _ v hlk' hceq
  have hv : v.1 = tempName k' v.2 := htemp (k', v) (lookupL_mem hlk')
  rw [hv] at hceq
  rw [← hceq, parseName_tempName] at hp
  exact absurd hp (by simp)

/-- Witness for C8: the directory 07. Z, whose ordinal 7 is not a key, is
untouched. -/
theorem C8_unmapped_untouched_witness :
    Entry.mk (chars "07. Z") true ∈
      ([⟨chars "10. A", true⟩, ⟨chars "07. Z", true⟩] : List Entry) :=
  C8_unmapped_untouched [(8, 10)]
    [⟨chars "08. A", true⟩, ⟨chars "07. Z", true⟩] _
    (by decide) (Entry.mk (chars "07. Z") true) (by decide) rfl
    7 (chars "Z") (by decide) (by decide)

/-- In a successful phase 1, the recorded temporary names avoid the name of
any present entry that matches no listed key. -/
theorem phase1T_tr_fresh {m : List (Nat × Nat)} :
    ∀ {ks : List Nat} {fs : List Entry} {tr : TR} {fs1 : List Entry} {tr1 : TR}
      {e : Entry},
      (phase1T m ks fs tr).1 = .ok (fs1, tr1) → e ∈ fs →
      (∀ k ∈ ks, ∀ l, parseName e.name ≠ some (k, l)) →
      (∀ p ∈ tr, p.2.1 ≠ e.name) → ∀ p ∈ tr1, p.2.1 ≠ e.name := by
  intro ks
  induction ks with
  | nil =>
    intro fs tr fs1 tr1 e h _ _ htr
    simp only [phase1T] at h
    rw [Except.ok.injEq, Prod.mk.injEq] at h
    exact h.2 ▸ htr
  | cons k ks ih =>
    intro fs tr fs1 tr1 e h he hc htr
    simp only [phase1T] at h
    rcases hlk : lookupL k m with _ | n <;> simp only [hlk] at h
    · exact ih h he (fun k' hk' => hc k' (List.mem_cons_of_mem k hk')) htr
    · rcases hfm : findMatch k fs with _ | ⟨nm, l0⟩ <;> simp only [hfm] at h
      · exact ih h he (fun k' hk' => hc k' (List.mem_cons_of_mem k hk')) htr
      · rcases hrn : renameFs nm (tempName n l0) fs with err | fs' <;>
          simp only [hrn] at h
        · simp at h
        · have hene : e.name ≠ nm := by
            intro hceq
            have hpnm := findMatch_parse hfm
            rw [← hceq] at hpnm
            exact hc k (List.mem_cons_self k ks) l0 hpnm
          have hfresh : tempName n l0 ≠ e.name := by
            rcases renameFs_ok_tgt hrn with heq | hocc
            · exfalso
              have hpnm := findMatch_parse hfm
              rw [heq, parseName_tempName] at hpnm
              exact absurd hpnm (by simp)
            · exact fun hceq => hocc e he hceq.symm
          refine ih h (renameFs_mem_of_ne hrn he hene)
            (fun k' hk' => hc k' (List.mem_cons_of_mem k hk')) ?_
          intro p hp
          rcases insertTR_mem hp with hmem | rfl
          · exact htr p hmem
          · exact hfresh

/-- C7 counterexample: the directory 8 period tab X is considered by the
script (its name matches the regex, whose whitespace class also accepts a
tab), but its name does not consist of digits, a period, exactly one space,
and a suffix. -/
theorem C7_counterexample :
    (Entry.mk ['8', '.', '\t', 'X'] true).isDir = true ∧
    parseName ['8', '.', '\t', 'X'] = some (8, ['X']) ∧
    ¬ ∃ ds l, ['8', '.', '\t', 'X'] = ds ++ '.' :: ' ' :: l ∧ ds ≠ [] ∧
      (∀ c ∈ ds, c.isDigit = true) ∧ l ≠ [] := by
  refine ⟨rfl, by decide, ?_⟩
  rintro ⟨ds, l, heq, hne, hdig, hlne⟩
  rcases ds with _ | ⟨c, ds2⟩
  · exact hne rfl
  · rcases ds2 with _ | ⟨c2, ds3⟩
    · rw [List.singleton_append] at heq
      injection heq with h1 heq
      injection heq with h2 heq
      injection heq with h3 heq
      exact absurd h3 (by decide)
    · rw [List.cons_append, List.cons_append] at heq
      injection heq with h1 heq
      injection heq with h2 heq
      have hmem : c2 ∈ c :: c2 :: ds3 := by simp
      have hd2 := hdig c2 hmem
      rw [← h2] at hd2
      exact absurd hd2 (by decide)

/-- C7, amended: an entry is considered for renaming exactly when it is a
directory whose name is one or more characters of the digit class of the
regex (the Unicode decimal digits, whose values int parses), a period, one
character of the whitespace class of the regex (the Unicode whitespace
characters), then a nonempty suffix without a newline, optionally followed by
one trailing newline; the scan only ever selects such entries, and entries
whose name does not match the regex survive a successful run unchanged. -/
theorem C7_considered_iff_pattern :
    (∀ (k : Nat) (fs : List Entry) (nm l : Name), findMatch k fs = some (nm, l) →
      ∃ e ∈ fs, e.name = nm ∧ e.isDir = true ∧ parseName e.name = some (k, l)) ∧
    (∀ (s : Name) (k : Nat) (l : Name), parseName s = some (k, l) ↔
      ∃ ds w opt, s = ds ++ '.' :: w :: (l ++ opt) ∧ ds ≠ [] ∧
        (∀ c ∈ ds, isPyDigit c = true) ∧ isPyWhitespace w = true ∧ l ≠ [] ∧
        ¬ '\n' ∈ l ∧ (opt = [] ∨ opt = ['\n']) ∧ k = digitsToNat ds) ∧
    (∀ (m : List (Nat × Nat)) (fs fs' : List Entry), run m fs = .ok fs' →
      ∀ e ∈ fs, parseName e.name = none → e ∈ fs') := by
  refine ⟨fun k fs nm l h => findMatch_some h,
    fun s k l => parseName_eq_some_iff s k l, ?_⟩
  intro m fs fs' hrun e he hp
  have hrun' : (runT m fs).1 = .ok fs' := hrun
  rcases runT_ok_inv hrun' with ⟨fs1, tr, h1, h2, _⟩
  have hc : ∀ k' ∈ p1Keys m, ∀ l', parseName e.name ≠ some (k', l') := by
    intro k' _ l' hcp
    rw [hp] at hcp
    exact absurd hcp (by simp)
  have he1 : e ∈ fs1 := phase1T_preserves h1 he hc
  have hfresh : ∀ p ∈ tr, p.2.1 ≠ e.name :=
    phase1T_tr_fresh h1 he hc (by simp)
  refine phase2T_preserves h2 he1 ?_
  intro k' _ v hlk' hceq
  exact hfresh (k', v) (lookupL_mem hlk') hceq

/-- Witness for C7, at an ASCII name and at a name whose separator is the
file separator character, which the whitespace class of the regex matches
although it is no space. -/
theorem C7_considered_iff_pattern_witness :
    parseName (chars "08. Loops") = some (8, chars "Loops") ∧
    parseName ['8', '.', '\x1c', 'X'] = some (8, ['X']) :=
  ⟨(C7_considered_iff_pattern.2.1 (chars "08. Loops") 8 (chars "Loops")).mpr
    ⟨['0', '8'], ' ', [], by decide, by decide, by decide, by decide, by decide,
      by decide, Or.inl rfl, by decide⟩,
   (C7_considered_iff_pattern.2.1 ['8', '.', '\x1c', 'X'] 8 ['X']).mpr
    ⟨['8'], '\x1c', [], by decide, by decide, by decide, by decide, by decide,
      by decide, Or.inl rfl, by decide⟩⟩

/-- C2 counterexample: with the injective map 8 to 10 and an initial listing
of distinct names containing 08. X and 10. X (the ordinal 10 is not a key),
the phase 2 rename of the staged entry is issued while its target name 10. X
is still occupied by the untouched directory, so not every issued rename has
an unoccupied target. -/
theorem C2_counterexample :
    (([(8, 10)] : List (Nat × Nat)).map Prod.snd).Nodup ∧
    (([⟨chars "08. X", true⟩, ⟨chars "10. X", true⟩] : List Entry).map
      Entry.name).Nodup ∧
    ¬ ∀ ev ∈ (runT [(8, 10)] [⟨chars "08. X", true⟩, ⟨chars "10. X", true⟩]).2,
        ∀ e ∈ ev.pre, e.name ≠ ev.tgt := by
  exact ⟨by decide, by decide, by decide⟩

/-- C2, amended: in a successful run, every issued rename of either phase has
an unoccupied target at the moment it is issued, the listing has pairwise
distinct names at every intermediate point (when the initial names are
distinct), and every phase 1 target is a marker-prefixed temporary name that
matches no pattern and equals no final name. -/
theorem C2_collision_free_success (m : List (Nat × Nat)) (fs fs' : List Entry)
    (hnames : (fs.map Entry.name).Nodup) (hrun : run m fs = .ok fs') :
    (∀ ev ∈ (runT m fs).2, ∀ e ∈ ev.pre, e.name ≠ ev.tgt) ∧
    (∀ ev ∈ (runT m fs).2, (ev.pre.map Entry.name).Nodup) ∧
    (fs'.map Entry.name).Nodup ∧
    (∀ ev ∈ (phase1T m (p1Keys m) fs []).2,
      ∃ n l, ev.tgt = tempName n l ∧ parseName ev.tgt = none ∧
        ∀ (k' : Nat) (l' : Name), ev.tgt ≠ finalName k' l') := by
  have hrun' : (runT m fs).1 = .ok fs' := hrun
  rcases runT_ok_inv hrun' with ⟨fs1, tr, h1, h2, hevs⟩
  have htemp : ∀ p ∈ tr, p.2.1 = tempName p.1 p.2.2 :=
    phase1T_tr_inv (fun p => p.2.1 = tempName p.1 p.2.2) (fun _ _ => rfl) h1 (by simp)
  rcases phase1T_evs_inv h1 hnames with ⟨hn1, hev1⟩
  rcases phase2T_evs_inv htemp h2 hn1 with ⟨hn2, hev2⟩
  refine ⟨?_, ?_, hn2, ?_⟩
  · intro ev hev
    rw [hevs] at hev
    rcases List.mem_append.mp hev with hmem | hmem
    · exact (hev1 ev hmem).2
    · exact (hev2 ev hmem).2
  · intro ev hev
    rw [hevs] at hev
    rcases List.mem_append.mp hev with hmem | hmem
    · exact (hev1 ev hmem).1
    · exact (hev2 ev hmem).1
  · intro ev hev
    rcases phase1T_evs_tmp ev hev with ⟨n, l, htg⟩
    refine ⟨n, l, htg, by rw [htg]; exact parseName_tempName n l, ?_⟩
    intro k' l'
    rw [htg]
    exact tempName_ne_finalName n l k' l'

/-- Witness for C2 at a concrete successful run. -/
theorem C2_collision_free_success_witness :
    (([⟨chars "10. A", true⟩, ⟨chars "11. B", true⟩] : List Entry).map
      Entry.name).Nodup :=
  (C2_collision_free_success [(8, 10), (9, 11)]
    [⟨chars "08. A", true⟩, ⟨chars "09. B", true⟩]
    [⟨chars "10. A", true⟩, ⟨chars "11. B", true⟩]
    (by decide) (by decide)).2.2.1

/-- C3 counterexample: with the map 8 to 10, 10 to 12 (new and old ordinals
overlap) a first successful run produces 10. A and 12. B, and a second run on
that state is not a skip: the key 10 matches the directory 10. A created by
the first run, renames are issued, and the tree changes. -/
theorem C3_counterexample :
    run [(8, 10), (10, 12)] [⟨chars "08. A", true⟩, ⟨chars "10. B", true⟩] =
      .ok [⟨chars "10. A", true⟩, ⟨chars "12. B", true⟩] ∧
    findMatch 10 [⟨chars "10. A", true⟩, ⟨chars "12. B", true⟩] ≠ none ∧
    (runT [(8, 10), (10, 12)] [⟨chars "10. A", true⟩, ⟨chars "12. B", true⟩]).2 ≠ [] ∧
    run [(8, 10), (10, 12)] [⟨chars "10. A", true⟩, ⟨chars "12. B", true⟩] ≠
      .ok [⟨chars "10. A", true⟩, ⟨chars "12. B", true⟩] := by
  exact ⟨by decide, by decide, by decide, by decide⟩

/-- C3, amended: when the new ordinals of the map are disjoint from its old
ordinals and the matching directories have pairwise distinct ordinals, a
second run on the state produced by a first successful run skips every key
with a missing match, issues no rename in either phase, and leaves the tree
unchanged. -/
theorem C3_idempotent_when_disjoint (m : List (Nat × Nat)) (fs fs' : List Entry)
    (hdisj : ∀ v ∈ m.map Prod.snd, ¬ v ∈ m.map Prod.fst)
    (hord : OrdUniq fs) (hrun : run m fs = .ok fs') :
    (∀ k ∈ m.map Prod.fst, findMatch k fs' = none) ∧
    runT m fs' = (.ok fs', []) := by
  have hrun' : (runT m fs).1 = .ok fs' := hrun
  rcases runT_ok_inv hrun' with ⟨fs1, tr, h1, h2, _⟩
  have hkm : ∀ k ∈ p1Keys m, ∃ n, lookupL k m = some n := fun k hk =>
    lookupL_isSome_of_mem_keys ((p1Keys_mem m k).mp hk)
  have hclean := phase1T_clean h1 hord hkm
  have htrkeys : ∀ p ∈ tr, p.1 ∈ m.map Prod.snd := phase1T_tr_keys h1 (by simp)
  have hnomatch : ∀ k ∈ m.map Prod.fst, ∀ e ∈ fs', e.isDir = true →
      ∀ l, parseName e.name ≠ some (k, l) := by
    intro k hk e he hd l hp
    rcases phase2T_entries h2 e he with hmem | ⟨k', hk', l', hl'⟩
    · exact hclean k ((p1Keys_mem m k).mpr hk) e hmem hd l hp
    · have hk'tr : k' ∈ tr.map Prod.fst := (p2Keys_mem tr k').mp hk'
      rcases List.mem_map.mp hk'tr with ⟨p, hpmem, hpfst⟩
      have hk'val : k' ∈ m.map Prod.snd := hpfst ▸ htrkeys p hpmem
      have hk'notkey : ¬ k' ∈ m.map Prod.fst := hdisj k' hk'val
      rw [hl', parseName_finalName] at hp
      rcases hmt : matchTail l' with _ | t <;> rw [hmt] at hp
      · simp at hp
      · simp only [Option.map_some'] at hp
        rw [Option.some_inj, Prod.mk.injEq] at hp
        exact hk'notkey (hp.1 ▸ hk)
  have hskip : ∀ k ∈ p1Keys m, findMatch k fs' = none := fun k hk =>
    findMatch_eq_none (fun e he hd l =>
      hnomatch k ((p1Keys_mem m k).mp hk) e he hd l)
  refine ⟨fun k hk => findMatch_eq_none (fun e he hd l =>
    hnomatch k hk e he hd l), ?_⟩
  rw [runT, phase1T_all_skip hskip]
  rfl

/-- Witness for C3 at a concrete disjoint map. -/
theorem C3_idempotent_when_disjoint_witness :
    runT [(8, 10), (9, 11)] [⟨chars "10. A", true⟩, ⟨chars "11. B", true⟩] =
      (.ok [⟨chars "10. A", true⟩, ⟨chars "11. B", true⟩], []) :=
  (C3_idempotent_when_disjoint [(8, 10), (9, 11)]
    [⟨chars "08. A", true⟩, ⟨chars "09. B", true⟩]
    [⟨chars "10. A", true⟩, ⟨chars "11. B", true⟩]
    (by decide) (ordUniqB_spec (by decide)) (by decide)).2

end Renumber
